import Mathlib

/-!
Verification of the numeric-formatting core of rust-lexical.

This file shallowly embeds the three source files of the repository:
  src/src/float.rs                          (extended-precision FloatType)
  src/lexical-core/src/ftoa/radix.rs        (naive radix float formatter)
  src/lexical_write_integer/src/algorithm.rs (radix integer formatter)
Machine integers are modelled as Nat with explicit reduction mod 2^64 where
the Rust code can wrap; i32 values are modelled as Int.  Fallible or
undefined behaviour (out-of-bounds table access) is modelled with Option.
-/

namespace Lexical

/-- Modulus of the 64-bit unsigned integers used for FloatType fractions. -/
def u64Mod : Nat := 2 ^ 64

/-- Extended precision floating-point type, from src/src/float.rs.
Represents the non-negative real number frac * 2^exp. -/
structure FloatType where
  exp : Int
  frac : Nat
  deriving DecidableEq

/-- The shl! macro: shift the fraction left, adjusting the exponent
(u64 shifts wrap modulo 2^64). -/
def shl (x : FloatType) (shift : Nat) : FloatType :=
  { frac := (x.frac <<< shift) % u64Mod, exp := x.exp - shift }

/-- The check_shl! macro: lossless shift left, applied only when the top
shift bits of the (base = 64 bit) fraction are zero. -/
def checkShl (x : FloatType) (base shift : Nat) : FloatType :=
  if x.frac >>> (base - shift) = 0 then shl x shift else x

/-- The shr! macro: shift the fraction right, adjusting the exponent. -/
def shr (x : FloatType) (shift : Nat) : FloatType :=
  { frac := x.frac >>> shift, exp := x.exp + shift }

/-- FloatType.normalize: cascade of lossless shifts by 32,16,8,4,2,1. -/
def FloatType.normalize (x : FloatType) : FloatType :=
  checkShl (checkShl (checkShl (checkShl (checkShl (checkShl x 64 32) 64 16) 64 8) 64 4) 64 2) 64 1

/-- The shift_to_float! macro: shift the fraction to the fraction bits of a
native float, rounding to nearest with ties to even, with a carry re-shift. -/
def shiftToFloat (truncMask truncMid oddMask carryMask : Nat) (shift : Nat)
    (x : FloatType) : FloatType :=
  let truncatedBits := x.frac &&& truncMask
  let isAbove := truncMid < truncatedBits
  let isHalfway := truncatedBits = truncMid
  let isOdd := x.frac &&& oddMask = oddMask
  let y := shr x shift
  let f := y.frac + (if isAbove ∨ (isOdd ∧ isHalfway) then 1 else 0)
  if f &&& carryMask = carryMask then
    { frac := f >>> 1, exp := y.exp + 1 }
  else
    { frac := f, exp := y.exp }

/-- shift_to_f32! constants. -/
def shiftToF32 (x : FloatType) : FloatType :=
  shiftToFloat 0xFFFFFFFFFF 0x8000000000 0x10000000000 0x1000000 40 x

/-- shift_to_f64! constants. -/
def shiftToF64 (x : FloatType) : FloatType :=
  shiftToFloat 0x7FF 0x400 0x800 0x20000000000000 11 x

/-- The avoid_underflow! macro: shift right toward the denormal exponent if
that does not zero the fraction. -/
def avoidUnderflow (denormal : Int) (x : FloatType) : FloatType :=
  if x.exp < denormal then
    if x.frac >>> (denormal - x.exp).toNat ≠ 0 then
      { frac := x.frac >>> (denormal - x.exp).toNat,
        exp := x.exp + ((denormal - x.exp).toNat : Int) }
    else x
  else x

/-- The avoid_overflow! macro: shift left if the exponent is at least the
maximum and no set bit sits under the precomputed mask for the difference. -/
def avoidOverflow (maxE : Int) (masks : List Nat) (x : FloatType) : FloatType :=
  if maxE ≤ x.exp then
    if h : (x.exp - maxE).toNat < masks.length then
      if x.frac &&& masks.get ⟨(x.exp - maxE).toNat, h⟩ = 0 then
        { frac := (x.frac <<< ((x.exp - maxE).toNat + 1)) % u64Mod,
          exp := x.exp - (((x.exp - maxE).toNat : Int) + 1) }
      else x
    else x
  else x

-- FloatType constants from the impl block (only those the pipeline uses).

def F32_EXPONENT_MASK : Nat := 0x000000007F800000
def F32_HIDDEN_BIT_MASK : Nat := 0x0000000000800000
def F32_FRACTION_MASK : Nat := 0x00000000007FFFFF
def F64_EXPONENT_MASK : Nat := 0x7FF0000000000000
def F64_HIDDEN_BIT_MASK : Nat := 0x0010000000000000
def F64_FRACTION_MASK : Nat := 0x000FFFFFFFFFFFFF
def U32_INFINITY : Nat := 0x7F800000
def U64_INFINITY : Nat := 0x7FF0000000000000
def F32_SIGNIFICAND_SIZE : Nat := 23
def F32_EXPONENT_BIAS : Int := 127 + 23
def F32_DENORMAL_EXPONENT : Int := -F32_EXPONENT_BIAS + 1
def F32_MAX_EXPONENT : Int := 0xFF - F32_EXPONENT_BIAS
def F64_SIGNIFICAND_SIZE : Nat := 52
def F64_EXPONENT_BIAS : Int := 1023 + 52
def F64_DENORMAL_EXPONENT : Int := -F64_EXPONENT_BIAS + 1
def F64_MAX_EXPONENT : Int := 0x7FF - F64_EXPONENT_BIAS

/-- Bitmask table of normalize_to_f32 (every mask from the hidden bit over). -/
def masksF32 : List Nat :=
  [0x00800000, 0x00C00000, 0x00E00000, 0x00F00000, 0x00F80000, 0x00FC0000,
   0x00FE0000, 0x00FF0000, 0x00FF8000, 0x00FFC000, 0x00FFE000, 0x00FFF000,
   0x00FFF800, 0x00FFFC00, 0x00FFFE00, 0x00FFFF00, 0x00FFFF80, 0x00FFFFC0,
   0x00FFFFE0, 0x00FFFFF0, 0x00FFFFF8, 0x00FFFFFC, 0x00FFFFFE, 0x00FFFFFF]

/-- Bitmask table of normalize_to_f64 (every mask from the hidden bit over). -/
def masksF64 : List Nat :=
  [0x0010000000000000, 0x0018000000000000, 0x001C000000000000,
   0x001E000000000000, 0x001F000000000000, 0x001F800000000000,
   0x001FC00000000000, 0x001FE00000000000, 0x001FF00000000000,
   0x001FF80000000000, 0x001FFC0000000000, 0x001FFE0000000000,
   0x001FFF0000000000, 0x001FFF8000000000, 0x001FFFC000000000,
   0x001FFFE000000000, 0x001FFFF000000000, 0x001FFFF800000000,
   0x001FFFFC00000000, 0x001FFFFE00000000, 0x001FFFFF00000000,
   0x001FFFFF80000000, 0x001FFFFFC0000000, 0x001FFFFFE0000000,
   0x001FFFFFF0000000, 0x001FFFFFF8000000, 0x001FFFFFFC000000,
   0x001FFFFFFE000000, 0x001FFFFFFF000000, 0x001FFFFFFF800000,
   0x001FFFFFFFC00000, 0x001FFFFFFFE00000, 0x001FFFFFFFF00000,
   0x001FFFFFFFF80000, 0x001FFFFFFFFC0000, 0x001FFFFFFFFE0000,
   0x001FFFFFFFFF0000, 0x001FFFFFFFFF8000, 0x001FFFFFFFFFC000,
   0x001FFFFFFFFFE000, 0x001FFFFFFFFFF000, 0x001FFFFFFFFFF800,
   0x001FFFFFFFFFFC00, 0x001FFFFFFFFFFE00, 0x001FFFFFFFFFFF00,
   0x001FFFFFFFFFFF80, 0x001FFFFFFFFFFFC0, 0x001FFFFFFFFFFFE0,
   0x001FFFFFFFFFFFF0, 0x001FFFFFFFFFFFF8, 0x001FFFFFFFFFFFFC,
   0x001FFFFFFFFFFFFE, 0x001FFFFFFFFFFFFF]

/-- normalize_to_f32: normalize, shift to f32 bits, then the two fixups. -/
def normalizeToF32 (x : FloatType) : FloatType :=
  avoidOverflow F32_MAX_EXPONENT masksF32
    (avoidUnderflow F32_DENORMAL_EXPONENT (shiftToF32 x.normalize))

/-- normalize_to_f64: normalize, shift to f64 bits, then the two fixups. -/
def normalizeToF64 (x : FloatType) : FloatType :=
  avoidOverflow F64_MAX_EXPONENT masksF64
    (avoidUnderflow F64_DENORMAL_EXPONENT (shiftToF64 x.normalize))

/-- The as_float! macro, producing the bit pattern of the native float
(0 for underflow, the infinity bit pattern for overflow). -/
def asFloatBits (denormal : Int) (hidden fraction : Nat) (bias : Int)
    (maxE : Int) (inf : Nat) (sigSize : Nat) (x : FloatType) : Nat :=
  if x.frac = 0 ∨ x.exp < denormal then 0
  else if maxE ≤ x.exp then inf
  else
    let e : Int :=
      if x.exp = denormal ∧ x.frac &&& hidden = 0 then 0 else x.exp + bias
    (x.frac &&& fraction) ||| (e.toNat <<< sigSize)

/-- as_f32, returning the resulting f32 bit pattern. -/
def FloatType.asF32bits (x : FloatType) : Nat :=
  asFloatBits F32_DENORMAL_EXPONENT F32_HIDDEN_BIT_MASK F32_FRACTION_MASK
    F32_EXPONENT_BIAS F32_MAX_EXPONENT U32_INFINITY F32_SIGNIFICAND_SIZE
    (normalizeToF32 x)

/-- as_f64, returning the resulting f64 bit pattern. -/
def FloatType.asF64bits (x : FloatType) : Nat :=
  asFloatBits F64_DENORMAL_EXPONENT F64_HIDDEN_BIT_MASK F64_FRACTION_MASK
    F64_EXPONENT_BIAS F64_MAX_EXPONENT U64_INFINITY F64_SIGNIFICAND_SIZE
    (normalizeToF64 x)

/-- The from_float! macro for f32, taking the (sign-stripped) bit pattern. -/
def fromF32bits (bits : Nat) : FloatType :=
  let fp : FloatType :=
    { frac := bits &&& F32_FRACTION_MASK,
      exp := ((bits &&& F32_EXPONENT_MASK) >>> F32_SIGNIFICAND_SIZE : Nat) }
  if fp.exp ≠ 0 then
    { frac := fp.frac + F32_HIDDEN_BIT_MASK, exp := fp.exp - F32_EXPONENT_BIAS }
  else
    { frac := fp.frac, exp := -F32_EXPONENT_BIAS + 1 }

/-- The from_float! macro for f64, taking the (sign-stripped) bit pattern. -/
def fromF64bits (bits : Nat) : FloatType :=
  let fp : FloatType :=
    { frac := bits &&& F64_FRACTION_MASK,
      exp := ((bits &&& F64_EXPONENT_MASK) >>> F64_SIGNIFICAND_SIZE : Nat) }
  if fp.exp ≠ 0 then
    { frac := fp.frac + F64_HIDDEN_BIT_MASK, exp := fp.exp - F64_EXPONENT_BIAS }
  else
    { frac := fp.frac, exp := -F64_EXPONENT_BIAS + 1 }


-- HARD-CODED MULTIPLY (multiply_pow2_impl! / multiply_not_pow2_impl! / multiply_n_impl!)

/-- multiply_pow2_impl!: a power-of-two multiply just bumps the exponent. -/
def multiplyPow2Impl (x : FloatType) (e : Nat) : FloatType :=
  { frac := x.frac, exp := x.exp + e }

/-- multiply_not_pow2_impl!: multiply the fraction by the factor, shifting
right first when the product would overflow 64 bits. -/
def multiplyNotPow2Impl (x : FloatType) (factor shift : Nat) : FloatType :=
  let maxV := (u64Mod - 1) / factor + 1
  if x.frac < maxV then
    { frac := (factor * x.frac) % u64Mod, exp := x.exp }
  else
    let y := shr x shift
    { frac := (y.frac * factor) % u64Mod, exp := y.exp }

/-- The checked wrapper generated by multiply_n_impl!: refuse the unchecked
multiply once the exponent reaches F64_MAX_EXPONENT. -/
def mulChecked (unchecked : FloatType -> FloatType) (x : FloatType) : FloatType :=
  if x.exp < F64_MAX_EXPONENT then unchecked x else x

/-- mul_n_unchecked: dispatch to the 35 generated unchecked multiplies;
the unreachable! arm is modelled as none. -/
def FloatType.mulNUnchecked (x : FloatType) (n : Nat) : Option FloatType :=
  match n with
  | 2 => some (multiplyPow2Impl x 1)
  | 3 => some (multiplyNotPow2Impl x 3 2)
  | 4 => some (multiplyPow2Impl x 2)
  | 5 => some (multiplyNotPow2Impl x 5 3)
  | 6 => some (multiplyNotPow2Impl x 6 3)
  | 7 => some (multiplyNotPow2Impl x 7 3)
  | 8 => some (multiplyPow2Impl x 3)
  | 9 => some (multiplyNotPow2Impl x 9 4)
  | 10 => some (multiplyNotPow2Impl x 10 4)
  | 11 => some (multiplyNotPow2Impl x 11 4)
  | 12 => some (multiplyNotPow2Impl x 12 4)
  | 13 => some (multiplyNotPow2Impl x 13 4)
  | 14 => some (multiplyNotPow2Impl x 14 4)
  | 15 => some (multiplyNotPow2Impl x 15 4)
  | 16 => some (multiplyPow2Impl x 4)
  | 17 => some (multiplyNotPow2Impl x 17 5)
  | 18 => some (multiplyNotPow2Impl x 18 5)
  | 19 => some (multiplyNotPow2Impl x 19 5)
  | 20 => some (multiplyNotPow2Impl x 20 5)
  | 21 => some (multiplyNotPow2Impl x 21 5)
  | 22 => some (multiplyNotPow2Impl x 22 5)
  | 23 => some (multiplyNotPow2Impl x 23 5)
  | 24 => some (multiplyNotPow2Impl x 24 5)
  | 25 => some (multiplyNotPow2Impl x 25 5)
  | 26 => some (multiplyNotPow2Impl x 26 5)
  | 27 => some (multiplyNotPow2Impl x 27 5)
  | 28 => some (multiplyNotPow2Impl x 28 5)
  | 29 => some (multiplyNotPow2Impl x 29 5)
  | 30 => some (multiplyNotPow2Impl x 30 5)
  | 31 => some (multiplyNotPow2Impl x 31 5)
  | 32 => some (multiplyPow2Impl x 5)
  | 33 => some (multiplyNotPow2Impl x 33 6)
  | 34 => some (multiplyNotPow2Impl x 34 6)
  | 35 => some (multiplyNotPow2Impl x 35 6)
  | 36 => some (multiplyNotPow2Impl x 36 6)
  | _ => none

/-- mul_n: dispatch to the 35 generated checked multiplies. -/
def FloatType.mulN (x : FloatType) (n : Nat) : Option FloatType :=
  match n with
  | 2 => some (mulChecked (fun y => multiplyPow2Impl y 1) x)
  | 3 => some (mulChecked (fun y => multiplyNotPow2Impl y 3 2) x)
  | 4 => some (mulChecked (fun y => multiplyPow2Impl y 2) x)
  | 5 => some (mulChecked (fun y => multiplyNotPow2Impl y 5 3) x)
  | 6 => some (mulChecked (fun y => multiplyNotPow2Impl y 6 3) x)
  | 7 => some (mulChecked (fun y => multiplyNotPow2Impl y 7 3) x)
  | 8 => some (mulChecked (fun y => multiplyPow2Impl y 3) x)
  | 9 => some (mulChecked (fun y => multiplyNotPow2Impl y 9 4) x)
  | 10 => some (mulChecked (fun y => multiplyNotPow2Impl y 10 4) x)
  | 11 => some (mulChecked (fun y => multiplyNotPow2Impl y 11 4) x)
  | 12 => some (mulChecked (fun y => multiplyNotPow2Impl y 12 4) x)
  | 13 => some (mulChecked (fun y => multiplyNotPow2Impl y 13 4) x)
  | 14 => some (mulChecked (fun y => multiplyNotPow2Impl y 14 4) x)
  | 15 => some (mulChecked (fun y => multiplyNotPow2Impl y 15 4) x)
  | 16 => some (mulChecked (fun y => multiplyPow2Impl y 4) x)
  | 17 => some (mulChecked (fun y => multiplyNotPow2Impl y 17 5) x)
  | 18 => some (mulChecked (fun y => multiplyNotPow2Impl y 18 5) x)
  | 19 => some (mulChecked (fun y => multiplyNotPow2Impl y 19 5) x)
  | 20 => some (mulChecked (fun y => multiplyNotPow2Impl y 20 5) x)
  | 21 => some (mulChecked (fun y => multiplyNotPow2Impl y 21 5) x)
  | 22 => some (mulChecked (fun y => multiplyNotPow2Impl y 22 5) x)
  | 23 => some (mulChecked (fun y => multiplyNotPow2Impl y 23 5) x)
  | 24 => some (mulChecked (fun y => multiplyNotPow2Impl y 24 5) x)
  | 25 => some (mulChecked (fun y => multiplyNotPow2Impl y 25 5) x)
  | 26 => some (mulChecked (fun y => multiplyNotPow2Impl y 26 5) x)
  | 27 => some (mulChecked (fun y => multiplyNotPow2Impl y 27 5) x)
  | 28 => some (mulChecked (fun y => multiplyNotPow2Impl y 28 5) x)
  | 29 => some (mulChecked (fun y => multiplyNotPow2Impl y 29 5) x)
  | 30 => some (mulChecked (fun y => multiplyNotPow2Impl y 30 5) x)
  | 31 => some (mulChecked (fun y => multiplyNotPow2Impl y 31 5) x)
  | 32 => some (mulChecked (fun y => multiplyPow2Impl y 5) x)
  | 33 => some (mulChecked (fun y => multiplyNotPow2Impl y 33 6) x)
  | 34 => some (mulChecked (fun y => multiplyNotPow2Impl y 34 6) x)
  | 35 => some (mulChecked (fun y => multiplyNotPow2Impl y 35 6) x)
  | 36 => some (mulChecked (fun y => multiplyNotPow2Impl y 36 6) x)
  | _ => none

-- CACHED POWERS

/-- Cached powers of ten as specified by the Grisu algorithm
(the POWERS_OF_TEN table of src/src/float.rs). -/
def POWERS_OF_TEN : List FloatType :=
  [FloatType.mk (-1220) 18054884314459144840,
   FloatType.mk (-1193) 13451937075301367670,
   FloatType.mk (-1166) 10022474136428063862,
   FloatType.mk (-1140) 14934650266808366570,
   FloatType.mk (-1113) 11127181549972568877,
   FloatType.mk (-1087) 16580792590934885855,
   FloatType.mk (-1060) 12353653155963782858,
   FloatType.mk (-1034) 18408377700990114895,
   FloatType.mk (-1007) 13715310171984221708,
   FloatType.mk (-980) 10218702384817765436,
   FloatType.mk (-954) 15227053142812498563,
   FloatType.mk (-927) 11345038669416679861,
   FloatType.mk (-901) 16905424996341287883,
   FloatType.mk (-874) 12595523146049147757,
   FloatType.mk (-847) 9384396036005875287,
   FloatType.mk (-821) 13983839803942852151,
   FloatType.mk (-794) 10418772551374772303,
   FloatType.mk (-768) 15525180923007089351,
   FloatType.mk (-741) 11567161174868858868,
   FloatType.mk (-715) 17236413322193710309,
   FloatType.mk (-688) 12842128665889583758,
   FloatType.mk (-661) 9568131466127621947,
   FloatType.mk (-635) 14257626930069360058,
   FloatType.mk (-608) 10622759856335341974,
   FloatType.mk (-582) 15829145694278690180,
   FloatType.mk (-555) 11793632577567316726,
   FloatType.mk (-529) 17573882009934360870,
   FloatType.mk (-502) 13093562431584567480,
   FloatType.mk (-475) 9755464219737475723,
   FloatType.mk (-449) 14536774485912137811,
   FloatType.mk (-422) 10830740992659433045,
   FloatType.mk (-396) 16139061738043178685,
   FloatType.mk (-369) 12024538023802026127,
   FloatType.mk (-343) 17917957937422433684,
   FloatType.mk (-316) 13349918974505688015,
   FloatType.mk (-289) 9946464728195732843,
   FloatType.mk (-263) 14821387422376473014,
   FloatType.mk (-236) 11042794154864902060,
   FloatType.mk (-210) 16455045573212060422,
   FloatType.mk (-183) 12259964326927110867,
   FloatType.mk (-157) 18268770466636286478,
   FloatType.mk (-130) 13611294676837538539,
   FloatType.mk (-103) 10141204801825835212,
   FloatType.mk (-77) 15111572745182864684,
   FloatType.mk (-50) 11258999068426240000,
   FloatType.mk (-24) 16777216000000000000,
   FloatType.mk (3) 12500000000000000000,
   FloatType.mk (30) 9313225746154785156,
   FloatType.mk (56) 13877787807814456755,
   FloatType.mk (83) 10339757656912845936,
   FloatType.mk (109) 15407439555097886824,
   FloatType.mk (136) 11479437019748901445,
   FloatType.mk (162) 17105694144590052135,
   FloatType.mk (189) 12744735289059618216,
   FloatType.mk (216) 9495567745759798747,
   FloatType.mk (242) 14149498560666738074,
   FloatType.mk (269) 10542197943230523224,
   FloatType.mk (295) 15709099088952724970,
   FloatType.mk (322) 11704190886730495818,
   FloatType.mk (348) 17440603504673385349,
   FloatType.mk (375) 12994262207056124023,
   FloatType.mk (402) 9681479787123295682,
   FloatType.mk (428) 14426529090290212157,
   FloatType.mk (455) 10748601772107342003,
   FloatType.mk (481) 16016664761464807395,
   FloatType.mk (508) 11933345169920330789,
   FloatType.mk (534) 17782069995880619868,
   FloatType.mk (561) 13248674568444952270,
   FloatType.mk (588) 9871031767461413346,
   FloatType.mk (614) 14708983551653345445,
   FloatType.mk (641) 10959046745042015199,
   FloatType.mk (667) 16330252207878254650,
   FloatType.mk (694) 12166986024289022870,
   FloatType.mk (720) 18130221999122236476,
   FloatType.mk (747) 13508068024458167312,
   FloatType.mk (774) 10064294952495520794,
   FloatType.mk (800) 14996968138956309548,
   FloatType.mk (827) 11173611982879273257,
   FloatType.mk (853) 16649979327439178909,
   FloatType.mk (880) 12405201291620119593,
   FloatType.mk (907) 9242595204427927429,
   FloatType.mk (933) 13772540099066387757,
   FloatType.mk (960) 10261342003245940623,
   FloatType.mk (986) 15290591125556738113,
   FloatType.mk (1013) 11392378155556871081,
   FloatType.mk (1039) 16975966327722178521,
   FloatType.mk (1066) 12648080533535911531]

-- IEEE-754 round-to-nearest ties-to-even (reference semantics)

/-- Fuel-based binary logarithm (structural recursion so that the kernel
can evaluate it; the fuel n itself always suffices). -/
def natLog2Aux : Nat → Nat → Nat
  | 0, _ => 0
  | fuel+1, n => if 2 ≤ n then natLog2Aux fuel (n / 2) + 1 else 0

/-- Floor of the binary logarithm of n (0 for n = 0). -/
def natLog2 (n : Nat) : Nat := natLog2Aux n n

/-- Round-to-nearest ties-to-even of p / 2^s as an integer. -/
def rneShift (p : Nat) (s : Nat) : Nat :=
  let d := 2 ^ s
  let q := p / d
  let r := p % d
  if d / 2 < r ∨ (r = d / 2 ∧ q % 2 = 1) then q + 1 else q

/-- The quantum exponent the IEEE-754 rounding targets: the exponent of the
least significant retained bit, floored at the subnormal quantum emin. -/
def roundQuantum (sig : Nat) (emin : Int) (p : Nat) (t : Int) : Int :=
  max (((natLog2 p : Nat) : Int) + t - sig) emin

/-- The round-to-nearest ties-to-even mantissa of p * 2^t at quantum 2^q:
exact when the quantum is at or below 2^t, an integer RNE otherwise. -/
def roundMantissa (p : Nat) (t q : Int) : Nat :=
  if q - t ≤ 0 then p <<< (t - q).toNat else rneShift p (q - t).toNat

/-- Encode a rounded mantissa m at quantum exponent q into the format bit
pattern: re-shift a full carry, clamp to infBits past the maximum quantum
maxQ, emit subnormals with a zero exponent field. -/
def roundEncode (sig : Nat) (emin maxQ : Int) (infBits : Nat) (m : Nat) (q : Int) : Nat :=
  if m = 2 ^ (sig + 1) then
    (if maxQ < q + 1 then infBits else (q + 1 - emin + 1).toNat <<< sig)
  else if maxQ < q then infBits
  else if m < 2 ^ sig then m
  else (m - 2 ^ sig) + ((q - emin + 1).toNat <<< sig)

/-- IEEE-754 round-to-nearest ties-to-even conversion of the non-negative
real p * 2^t to a binary floating-point format with sig+1 significand bits,
minimum (denormal) quantum exponent emin and maximum quantum exponent maxQ,
returning the format bit pattern: 0 on underflow to zero, the subnormal or
normal encoding of the rounded value, or infBits on overflow past the
largest finite value.  This is the reference conversion the specification
describes (round the excess bits to the target width with ties to even,
clamp to 0 below the denormal floor and to infinity past the maximum
exponent). -/
def roundDyadic (sig : Nat) (emin maxQ : Int) (infBits : Nat)
    (p : Nat) (t : Int) : Nat :=
  if p = 0 then 0 else
  roundEncode sig emin maxQ infBits
    (roundMantissa p t (roundQuantum sig emin p t)) (roundQuantum sig emin p t)

/-- Reference round-to-nearest conversion of p * 2^t to an f64 bit pattern. -/
def roundF64 (p : Nat) (t : Int) : Nat :=
  roundDyadic 52 (-1074) 971 U64_INFINITY p t

/-- Reference round-to-nearest conversion of p * 2^t to an f32 bit pattern. -/
def roundF32 (p : Nat) (t : Int) : Nat :=
  roundDyadic 23 (-149) 104 U32_INFINITY p t


-- cached_power

def NPOWERS : Int := 87
def FIRSTPOWER : Int := -348
def STEPPOWERS : Int := 8
def EXPMAX : Int := -32
def EXPMIN : Int := -60

/-- The f64 constant ONE_LOG_TEN = 0.30102999566398114 is exactly the
dyadic rational 5422874305198590 * 2^-54 (bit pattern 0x3FD34413509F79FE). -/
def oneLogTenFrac : Nat := 5422874305198590

/-- Truncation toward zero of a non-negative finite f64 bit pattern,
as the Rust cast to i32 does for in-range values. -/
def truncF64bits (b : Nat) : Nat :=
  let m := b &&& F64_FRACTION_MASK
  let ef := (b &&& F64_EXPONENT_MASK) >>> 52
  if ef = 0 then 0
  else if ef ≤ 1075 then (m + 2 ^ 52) >>> (1075 - ef)
  else (m + 2 ^ 52) <<< (ef - 1075)

/-- The index estimate of cached_power:
(-((exp + NPOWERS) as f64) * ONE_LOG_TEN) as i32.  The int-to-f64 cast is
exact, the f64 product rounds to nearest, the i32 cast truncates to zero. -/
def cachedPowerApprox (e : Int) : Int :=
  let a : Int := e + NPOWERS
  let prodBits := roundF64 (a.natAbs * oneLogTenFrac) (-54)
  let tv : Int := truncF64bits prodBits
  if a ≤ 0 then tv else -tv

/-- The linear-correction loop of cached_power.  The index is an Int so a
usize wrap-around (idx decremented below 0) and any out-of-bounds
get_unchecked are modelled as none; fuel bounds the unbounded source loop. -/
def cachedPowerLoop : Nat -> Int -> Int -> Option (Nat × Int)
  | 0, _, _ => none
  | fuel+1, e, idx =>
    if idx < 0 then none else
    match POWERS_OF_TEN[idx.toNat]? with
    | none => none
    | some power =>
      let current := e + power.exp + 64
      if current < EXPMIN then cachedPowerLoop fuel e (idx + 1)
      else if EXPMAX < current then cachedPowerLoop fuel e (idx - 1)
      else some (idx.toNat, FIRSTPOWER + idx * STEPPOWERS)

/-- cached_power(exp, k): returns the table index it stops at together with
the decimal exponent written through k. -/
def cachedPower (e : Int) : Option (Nat × Int) :=
  let approx := cachedPowerApprox e
  let idx : Int := Int.tdiv (approx - FIRSTPOWER) STEPPOWERS
  cachedPowerLoop 87 e idx



/-- fast_multiply: multiply two normalized extended-precision floats. -/
def FloatType.fastMultiply (a b : FloatType) : FloatType :=
  let loMask : Nat := 0x00000000FFFFFFFF
  let ahbl := (a.frac >>> 32) * (b.frac &&& loMask)
  let albh := (a.frac &&& loMask) * (b.frac >>> 32)
  let albl := (a.frac &&& loMask) * (b.frac &&& loMask)
  let ahbh := (a.frac >>> 32) * (b.frac >>> 32)
  let tmp := (ahbl &&& loMask) + (albh &&& loMask) + (albl >>> 32) + (1 <<< 31)
  { frac := (ahbh + (ahbl >>> 32) + (albh >>> 32) + (tmp >>> 32)) % u64Mod,
    exp := a.exp + b.exp + 64 }

/-- The rational value frac * 2^exp represented by a FloatType. -/
def FloatType.val (x : FloatType) : ℚ := (x.frac : ℚ) * 2 ^ x.exp

/-- Executable check used to discharge C4 over the full exponent range. -/
def cachedPowerCheck (e : Int) : Bool :=
  match cachedPower e with
  | none => false
  | some (idx, k) =>
    match POWERS_OF_TEN[idx]? with
    | none => false
    | some p =>
      decide (idx < 87) && decide (k = FIRSTPOWER + (idx : Int) * STEPPOWERS) &&
        decide (EXPMIN ≤ e + p.exp + 64) && decide (e + p.exp + 64 ≤ EXPMAX)

/-- Conjunction of cachedPowerCheck over m exponents from a start offset. -/
def cachedPowerCheckRange (start : Nat) : Nat → Bool
  | 0 => true
  | n+1 => cachedPowerCheck ((start + n : Int) - 1137) && cachedPowerCheckRange start n


-- Integer formatting (write_digits / algorithm_u128)

/-- Modelled from the spec: the out-of-scope digit_to_char utility maps the
digit values 0-35 to the ASCII bytes 0-9 then a-z. -/
def digitToChar (d : Nat) : Nat := if d < 10 then 48 + d else 87 + d

/-- Modelled from the spec: the inverse char_to_digit mapping on the digit
alphabet, as a correct parser would use. -/
def charToDigit (c : Nat) : Nat := if c < 58 then c - 48 else c - 87

/-- The digit-pair lookup table of size 2*r^2: entry 2i is the character of
the high digit of i and entry 2i+1 the character of the low digit of i. -/
def digitPairTable (r : Nat) : List Nat :=
  (List.range (2 * r * r)).map
    (fun j => if j % 2 = 0 then digitToChar (j / 2 / r) else digitToChar (j / 2 % r))

/-- Caller-owned byte buffers are modelled as total maps from positions to
bytes; the formatter's index arithmetic is kept explicit. -/
def Buf : Type := Nat → Nat

/-- A single buffer store. -/
def bufSet (b : Buf) (i v : Nat) : Buf := fun p => if p = i then v else b p

/-- Read len consecutive bytes starting at start. -/
def bufSlice (b : Buf) (start len : Nat) : List Nat :=
  (List.range len).map (fun j => b (start + j))

/-- The 4-digits-at-a-time loop of write_digits: splits value % radix^4
into two digit pairs and writes their four characters at index-1 .. index-4. -/
def writeDigitsLoop4 (radix : Nat) (table : List Nat) (value : Nat) (buffer : Buf)
    (index : Nat) : Nat × Buf × Nat :=
  if h : 2 ≤ radix ∧ radix ^ 4 ≤ value then
    writeDigitsLoop4 radix table (value / radix ^ 4)
      (bufSet (bufSet (bufSet (bufSet buffer
        (index - 1) (table.getD (2 * (value % radix ^ 4 % radix ^ 2) + 1) 0))
        (index - 2) (table.getD (2 * (value % radix ^ 4 % radix ^ 2)) 0))
        (index - 3) (table.getD (2 * (value % radix ^ 4 / radix ^ 2) + 1) 0))
        (index - 4) (table.getD (2 * (value % radix ^ 4 / radix ^ 2)) 0))
      (index - 4)
  else (value, buffer, index)
termination_by value
decreasing_by
  exact Nat.div_lt_self (lt_of_lt_of_le (pow_pos (by omega) 4) h.2)
    (lt_of_lt_of_le (by norm_num) (Nat.pow_le_pow_left h.1 4))

/-- The 2-digits-at-a-time loop of write_digits. -/
def writeDigitsLoop2 (radix : Nat) (table : List Nat) (value : Nat) (buffer : Buf)
    (index : Nat) : Nat × Buf × Nat :=
  if h : 2 ≤ radix ∧ radix ^ 2 ≤ value then
    writeDigitsLoop2 radix table (value / radix ^ 2)
      (bufSet (bufSet buffer
        (index - 1) (table.getD (2 * (value % radix ^ 2) + 1) 0))
        (index - 2) (table.getD (2 * (value % radix ^ 2)) 0))
      (index - 2)
  else (value, buffer, index)
termination_by value
decreasing_by
  exact Nat.div_lt_self (lt_of_lt_of_le (pow_pos (by omega) 2) h.2)
    (lt_of_lt_of_le (by norm_num) (Nat.pow_le_pow_left h.1 2))

/-- write_digits: 4 digits at a time, then 2, then the last 1 or 2 digits. -/
def writeDigits (value radix : Nat) (table : List Nat) (buffer : Buf) (index : Nat) :
    Buf × Nat :=
  match writeDigitsLoop4 radix table value buffer index with
  | (v4, b4, i4) =>
    match writeDigitsLoop2 radix table v4 b4 i4 with
    | (v2, b2, i2) =>
      if v2 < radix then (bufSet b2 (i2 - 1) (digitToChar v2), i2 - 1)
      else
        (bufSet (bufSet b2 (i2 - 1) (table.getD (2 * v2 + 1) 0)) (i2 - 2)
          (table.getD (2 * v2) 0), i2 - 2)

/-- Fill count bytes from start upward with the zero character (the
ptr::write_bytes call of write_step_digits). -/
def fillZeros (buffer : Buf) (start : Nat) : Nat → Buf
  | 0 => buffer
  | n + 1 => fillZeros (bufSet buffer start 48) (start + 1) n

/-- write_step_digits: write the digits, then zero-fill down to the fixed
step width (end saturates at zero like usize saturating_sub). -/
def writeStepDigits (value radix : Nat) (table : List Nat) (buffer : Buf)
    (index step : Nat) : Buf × Nat :=
  match writeDigits value radix table buffer index with
  | (b, i) => (fillZeros b (index - step) (i - (index - step)), index - step)

/-- algorithm: write from the end of the buffer (index starts at the buffer
length). -/
def algorithm (value radix : Nat) (table : List Nat) (buffer : Buf) (len : Nat) :
    Buf × Nat :=
  writeDigits value radix table buffer len

/-- Modelled from the spec: the out-of-scope u128_divisor utility returns the
largest power of the radix that fits in a u64 together with its digit count
(the divisor/step pair; the leading-zero count only speeds up the division
and is dropped here). -/
def u128Divisor (radix : Nat) : Nat × Nat :=
  (radix ^ Nat.log radix (2 ^ 64 - 1), Nat.log radix (2 ^ 64 - 1))

/-- Modelled from the spec: u128_divrem is 128-bit division with remainder by
the precomputed divisor. -/
def u128Divrem (v d : Nat) : Nat × Nat := (v / d, v % d)

/-- algorithm_u128: delegate to the 64-bit path when possible, otherwise peel
off one or two zero-padded chunks of step digits; the `as u64` casts are the
explicit reductions modulo 2^64. -/
def algorithmU128 (value radix : Nat) (table : List Nat) (buffer : Buf) (len : Nat) :
    Buf × Nat :=
  if value ≤ 2 ^ 64 - 1 then algorithm (value % 2 ^ 64) radix table buffer len
  else
    match u128Divisor radix with
    | (divisor, step) =>
      match u128Divrem value divisor with
      | (value1, low) =>
        match writeStepDigits low radix table buffer len step with
        | (b1, i1) =>
          if value1 ≤ 2 ^ 64 - 1 then writeDigits (value1 % 2 ^ 64) radix table b1 i1
          else
            match u128Divrem value1 divisor with
            | (value2, mid) =>
              match writeStepDigits mid radix table b1 i1 step with
              | (b2, i2) =>
                if i2 ≠ 0 then writeDigits (value2 % 2 ^ 64) radix table b2 i2
                else (b2, i2)

-- Specification-side digit strings

/-- The canonical radix-r digit byte string of v, most significant first. -/
def digitsBytes (r v : Nat) : List Nat :=
  if v = 0 then [48] else ((Nat.digits r v).map digitToChar).reverse

/-- A correct big-endian radix-r integer parser. -/
def parseDigits (r : Nat) (bytes : List Nat) : Nat :=
  Nat.ofDigits r ((bytes.map charToDigit).reverse)

/-- The lowest k radix-r digits of m, least significant first. -/
def lowDigits (r k m : Nat) : List Nat :=
  (List.range k).map (fun i => m / r ^ i % r)

-- Exact softfloat layer: finite non-negative f64 values are their bit
-- patterns (Nat); each Rust arithmetic operation decodes to an exact dyadic
-- value via from_float! and re-encodes with the reference round-to-nearest
-- conversion.

/-- The exact rational value of a finite f64 bit pattern. -/
def F64val (b : Nat) : ℚ := (fromF64bits b).val

/-- Exact comparison a < b of two finite non-negative f64 bit patterns:
the decoded mantissas are cross-scaled to a common exponent. -/
def f64Lt (a b : Nat) : Bool :=
  decide ((fromF64bits a).frac *
      2 ^ ((fromF64bits a).exp - (fromF64bits b).exp).toNat <
    (fromF64bits b).frac * 2 ^ ((fromF64bits b).exp - (fromF64bits a).exp).toNat)

/-- Exact comparison a ≤ b of two finite non-negative f64 bit patterns. -/
def f64Le (a b : Nat) : Bool :=
  decide ((fromF64bits a).frac *
      2 ^ ((fromF64bits a).exp - (fromF64bits b).exp).toNat ≤
    (fromF64bits b).frac * 2 ^ ((fromF64bits b).exp - (fromF64bits a).exp).toNat)

/-- IEEE f64 addition: align the decoded mantissas at the smaller exponent,
add exactly, round to nearest (ties to even). -/
def f64Add (a b : Nat) : Nat :=
  roundF64 ((fromF64bits a).frac *
      2 ^ ((fromF64bits a).exp - min (fromF64bits a).exp (fromF64bits b).exp).toNat +
    (fromF64bits b).frac *
      2 ^ ((fromF64bits b).exp - min (fromF64bits a).exp (fromF64bits b).exp).toNat)
    (min (fromF64bits a).exp (fromF64bits b).exp)

/-- IEEE f64 subtraction a - b for a ≥ b (the only case the formatter
performs; the Nat subtraction truncates at zero otherwise). -/
def f64Sub (a b : Nat) : Nat :=
  roundF64 ((fromF64bits a).frac *
      2 ^ ((fromF64bits a).exp - min (fromF64bits a).exp (fromF64bits b).exp).toNat -
    (fromF64bits b).frac *
      2 ^ ((fromF64bits b).exp - min (fromF64bits a).exp (fromF64bits b).exp).toNat)
    (min (fromF64bits a).exp (fromF64bits b).exp)

/-- IEEE f64 multiplication: exact product of the decoded values, rounded. -/
def f64Mul (a b : Nat) : Nat :=
  roundF64 ((fromF64bits a).frac * (fromF64bits b).frac)
    ((fromF64bits a).exp + (fromF64bits b).exp)

/-- IEEE f64 division: the quotient is computed to 130 extra bits with a
sticky bit for the remainder, which the reference rounding then reduces;
with more than 53+2 quotient bits this realizes round-to-nearest exactly. -/
def f64Div (a b : Nat) : Nat :=
  if (fromF64bits b).frac = 0 then 0
  else
    roundF64 (2 * ((fromF64bits a).frac <<< 130 / (fromF64bits b).frac) +
        (if (fromF64bits a).frac <<< 130 % (fromF64bits b).frac = 0 then 0 else 1))
      ((fromF64bits a).exp - (fromF64bits b).exp - 131)

/-- f64 floor of a non-negative finite value: drop the fractional bits
(the re-encoding is exact since the integer fits the mantissa). -/
def f64Floor (b : Nat) : Nat :=
  if 0 ≤ (fromF64bits b).exp then b
  else roundF64 ((fromF64bits b).frac >>> (-(fromF64bits b).exp).toNat) 0

/-- Truncation of a non-negative finite f64 to an unsigned integer
(the Rust `as i32` / `as usize` casts for in-range values). -/
def f64TruncNat (b : Nat) : Nat :=
  if 0 ≤ (fromF64bits b).exp then (fromF64bits b).frac <<< (fromF64bits b).exp.toNat
  else (fromF64bits b).frac >>> (-(fromF64bits b).exp).toNat

/-- The Rust f64 % operator against a small integer divisor: the remainder
of the truncated division, which is always exactly representable. -/
def f64ModNat (b r : Nat) : Nat :=
  if 0 ≤ (fromF64bits b).exp then
    roundF64 (((fromF64bits b).frac <<< (fromF64bits b).exp.toNat) % r) 0
  else
    roundF64 ((fromF64bits b).frac % (r <<< (-(fromF64bits b).exp).toNat))
      (fromF64bits b).exp

/-- Exact conversion of a small unsigned integer to f64. -/
def f64OfNat (n : Nat) : Nat := roundF64 n 0

/-- max_finite on two positive finite values is the larger one. -/
def f64Max (a b : Nat) : Nat := if f64Lt a b then b else a

-- f64 literals appearing in ftoa_naive (bit patterns).

/-- The f64 literal 0.5. -/
def F64_HALF : Nat := 4602678819172646912

/-- The f64 literal 1.0. -/
def F64_ONE : Nat := 4607182418800017408

/-- The f64 literal 1e-5 (not exactly representable; this is its
round-to-nearest bit pattern 0x3EE4F8B588E368F1). -/
def F64_1E5 : Nat := 4532020583610935537

/-- The f64 literal 1e9 (exactly representable). -/
def F64_1E9 : Nat := 4741671816366391296

-- ftoa_naive (src/lexical-core/src/ftoa/radix.rs)

/-- Modelled from the spec: the exponent notation marker character
(the caret for radixes where e is a digit, e otherwise). -/
def exponentNotationChar (r : Nat) : Nat := if 15 ≤ r then 94 else 101

/-- Modelled from the spec: the buffer-size constant whose derivation is out
of scope; only a sufficiently large magnitude matters for the embedded
formatter (the digit budget MAX_DIGIT_LENGTH below never truncates any
output this development reasons about). -/
def BUFFER_SIZE : Nat := 1536

/-- MAX_NONDIGIT_LENGTH of ftoa_naive. -/
def MAX_NONDIGIT_LENGTH : Nat := 25

/-- MAX_DIGIT_LENGTH of ftoa_naive. -/
def MAX_DIGIT_LENGTH : Nat := BUFFER_SIZE - MAX_NONDIGIT_LENGTH

/-- The initial (decimal point) position SIZE / 2 of the digit buffer. -/
def initialPosition : Nat := 1100

/-- Fuel-based floor logarithm in an arbitrary base (the fuel n itself
always suffices). -/
def natLogAux (r : Nat) : Nat → Nat → Nat
  | 0, _ => 0
  | fuel+1, n => if n < r then 0 else natLogAux r fuel (n / r) + 1

/-- Floor of the base-r logarithm of n (0 for n = 0). -/
def natLogF (r n : Nat) : Nat := natLogAux r n n

/-- The least j (starting from j0) with target ≤ m * r^j, by fuel. -/
def minPowAux (r target : Nat) : Nat → Nat → Nat → Nat
  | 0, _, j => j
  | fuel+1, m, j => if target ≤ m then j else minPowAux r target fuel (m * r) (j + 1)

/-- Modelled from the spec: naive_exponent computes floor(ln(d)/ln(radix));
the libm ln calls are outside the embedded sources, so this is the
mathematical floor of the radix logarithm of the decoded value. -/
def naiveExponent (d r : Nat) : Int :=
  if 0 ≤ (fromF64bits d).exp then
    (natLogF r ((fromF64bits d).frac <<< (fromF64bits d).exp.toNat) : Int)
  else
    if 2 ^ (-(fromF64bits d).exp).toNat ≤ (fromF64bits d).frac then
      (natLogF r ((fromF64bits d).frac >>> (-(fromF64bits d).exp).toNat) : Int)
    else
      -(minPowAux r (2 ^ (-(fromF64bits d).exp).toNat)
          ((-(fromF64bits d).exp).toNat + 2) (fromF64bits d).frac 0 : Int)

/-- The carry back-trace loop of ftoa_naive: step the fraction cursor back;
at initial_position - 1 carry into the integer part, otherwise bump the
previous digit (the code tests digit <= radix, which always holds) and stop.
Returns the buffer, the fraction cursor and the integer part. -/
def backtrace (radix : Nat) : Nat → Buf → Nat → Nat → Buf × Nat × Nat
  | 0, buffer, cursor, integer => (buffer, cursor, integer)
  | fuel+1, buffer, cursor, integer =>
    if cursor - 1 = initialPosition - 1 then
      (buffer, cursor - 1, f64Add integer F64_ONE)
    else
      if charToDigit (buffer (cursor - 1)) ≤ radix then
        (bufSet buffer (cursor - 1)
          (digitToChar (charToDigit (buffer (cursor - 1)) + 1)), cursor, integer)
      else backtrace radix fuel buffer (cursor - 1) integer

/-- The fractional digit loop of ftoa_naive: shift fraction and delta up one
digit, write the digit, subtract it, round to even with the delta guard
(entering the back-trace on a carry), and stop once delta >= fraction.
Returns the buffer, the fraction cursor and the integer part. -/
def fracLoop (radix : Nat) : Nat → Nat → Nat → Buf → Nat → Nat → Buf × Nat × Nat
  | 0, _, _, buffer, cursor, integer => (buffer, cursor, integer)
  | fuel+1, fraction, delta, buffer, cursor, integer =>
    let fraction1 := f64Mul fraction (f64OfNat radix)
    let delta1 := f64Mul delta (f64OfNat radix)
    let digit := f64TruncNat fraction1
    let buffer1 := bufSet buffer cursor (digitToChar digit)
    let fraction2 := f64Sub fraction1 (f64OfNat digit)
    if (f64Lt F64_HALF fraction2 ||
        (fraction2 == F64_HALF && digit % 2 == 1)) &&
        f64Lt F64_ONE (f64Add fraction2 delta1) then
      backtrace radix (cursor + 2) buffer1 (cursor + 1) integer
    else if f64Le fraction2 delta1 then (buffer1, cursor + 1, integer)
    else fracLoop radix fuel fraction2 delta1 buffer1 (cursor + 1) integer

/-- The zero-padding integer loop: while (integer / base).exponent() > 0,
divide and write a zero digit leftwards. -/
def intZeroLoop (radix : Nat) : Nat → Nat → Buf → Nat → Nat × Buf × Nat
  | 0, integer, buffer, cursor => (integer, buffer, cursor)
  | fuel+1, integer, buffer, cursor =>
    if 0 < (fromF64bits (f64Div integer (f64OfNat radix))).exp then
      intZeroLoop radix fuel (f64Div integer (f64OfNat radix))
        (bufSet buffer (cursor - 1) 48) (cursor - 1)
    else (integer, buffer, cursor)

/-- The integer digit loop: write integer % base, reduce the integer by an
exact divide, stop at zero. -/
def intDigitLoop (radix : Nat) : Nat → Nat → Buf → Nat → Buf × Nat
  | 0, _, buffer, cursor => (buffer, cursor)
  | fuel+1, integer, buffer, cursor =>
    let remainder := f64ModNat integer radix
    let buffer1 := bufSet buffer (cursor - 1) (digitToChar (f64TruncNat remainder))
    let integer1 := f64Div (f64Sub integer remainder) (f64OfNat radix)
    if integer1 = 0 then (buffer1, cursor - 1)
    else intDigitLoop radix fuel integer1 buffer1 (cursor - 1)

/-- The digit-generation phase of ftoa_naive: the shared buffer with the
integer digits to the left and the fractional digits to the right of
initial_position, together with both cursors. -/
structure FtoaDigits where
  buffer : Buf
  integerCursor : Nat
  fractionCursor : Nat

/-- Digit generation of ftoa_naive: split into integer and fraction, guard
the fraction loop by fraction > delta, then write the integer digits. -/
def ftoaDigitsGen (radix v : Nat) : FtoaDigits :=
  match (if f64Lt (f64Max 1 (f64Mul F64_HALF (f64Sub (v + 1) v)))
      (f64Sub v (f64Floor v)) then
    fracLoop radix 2200 (f64Sub v (f64Floor v))
      (f64Max 1 (f64Mul F64_HALF (f64Sub (v + 1) v)))
      (fun _ => 0) initialPosition (f64Floor v)
  else ((fun _ => 0 : Buf), initialPosition, f64Floor v)) with
  | (buffer, fractionCursor, integer) =>
    match intZeroLoop radix 1200 integer buffer initialPosition with
    | (integer1, buffer1, cursor1) =>
      match intDigitLoop radix 1200 integer1 buffer1 cursor1 with
      | (buffer2, integerCursor) =>
        { buffer := buffer2, integerCursor := integerCursor,
          fractionCursor := fractionCursor }

/-- Modelled from the spec: trim trailing zero digits (rtrim_char_slice). -/
def rtrimZero (l : List Nat) : List Nat :=
  (l.reverse.dropWhile (fun c => c == 48)).reverse


/-- Fuel-based big-endian digit writer (the fuel n itself always suffices). -/
def itoaForwardAux (r : Nat) : Nat → Nat → List Nat → List Nat
  | 0, _, acc => acc
  | fuel+1, n, acc =>
    if n < r then digitToChar n :: acc
    else itoaForwardAux r fuel (n / r) (digitToChar (n % r) :: acc)

/-- Modelled from the spec: itoa::forward, the out-of-scope generic unsigned
integer formatter, writes the canonical radix-r digit string. -/
def itoaForward (n r : Nat) : List Nat := itoaForwardAux r n n []

/-- The scientific-notation branch of ftoa_naive: select the digit window,
trim trailing zeros, and emit first digit, point, remaining digits, the
exponent marker and the signed exponent written by the integer formatter
(modelled from the spec as the canonical digit string). -/
def ftoaScientific (radix v : Nat) (st : FtoaDigits) : List Nat :=
  let exponent := naiveExponent v radix
  let start : Nat := if f64Le v F64_1E5 then
      ((initialPosition : Int) - exponent - 1).toNat
    else st.integerCursor
  let stop := min st.fractionCursor (start + MAX_DIGIT_LENGTH + 1)
  let window := rtrimZero (bufSlice st.buffer start (stop - start))
  [window.headD 0, 46] ++ window.tail ++ [exponentNotationChar radix] ++
    (if exponent < 0 then 45 :: itoaForward (-exponent).toNat radix
     else itoaForward exponent.toNat radix)

/-- The fixed-point branch of ftoa_naive: integer digits, then a point and
the fractional digits, or the literal ".0" when none were produced. -/
def ftoaFixed (radix : Nat) (st : FtoaDigits) : List Nat :=
  bufSlice st.buffer st.integerCursor (initialPosition - st.integerCursor) ++
    (if 0 < min (st.fractionCursor - initialPosition)
        (MAX_DIGIT_LENGTH - (initialPosition - st.integerCursor)) then
      46 :: bufSlice st.buffer initialPosition
        (min (st.fractionCursor - initialPosition)
          (MAX_DIGIT_LENGTH - (initialPosition - st.integerCursor)))
    else [46, 48])

/-- ftoa_naive: generate the digits, then choose scientific notation for
value <= 1e-5 or value >= 1e9 and fixed-point notation otherwise, returning
the written bytes. -/
def ftoaNaive (radix v : Nat) : List Nat :=
  if f64Le v F64_1E5 || f64Le F64_1E9 v then
    ftoaScientific radix v (ftoaDigitsGen radix v)
  else ftoaFixed radix (ftoaDigitsGen radix v)

-- ===================== THEOREMS =====================

-- Normalize lemmas

theorem checkShl_cases (x : FloatType) (s : Nat) (hs : 1 ≤ s) (hs2 : s ≤ 32)
    (hx : x.frac < 2 ^ 64) :
    ∃ j : Nat, checkShl x 64 s = FloatType.mk (x.exp - j) (x.frac * 2 ^ j) ∧
      x.frac * 2 ^ j < 2 ^ 64 := by
  unfold checkShl shl
  split
  case isTrue h =>
    have hlt : x.frac < 2 ^ (64 - s) := by
      rw [Nat.shiftRight_eq_div_pow, Nat.div_eq_zero_iff (by positivity)] at h
      exact h
    have hb : x.frac * 2 ^ s < 2 ^ 64 := by
      calc x.frac * 2 ^ s < 2 ^ (64 - s) * 2 ^ s := by
              exact (Nat.mul_lt_mul_right (by positivity)).mpr hlt
        _ = 2 ^ 64 := by rw [← pow_add]; congr 1; omega
    refine ⟨s, ?_, hb⟩
    have hmod : (x.frac <<< s) % u64Mod = x.frac * 2 ^ s := by
      rw [Nat.shiftLeft_eq, u64Mod, Nat.mod_eq_of_lt hb]
    simp [hmod]
  case isFalse h =>
    exact ⟨0, by simp, by simpa using hx⟩

theorem checkShl_msb (x : FloatType) (s : Nat) (hs : 1 ≤ s) (hs2 : s ≤ 32)
    (h63 : 2 ^ 63 ≤ x.frac) :
    checkShl x 64 s = x := by
  unfold checkShl
  rw [if_neg]
  rw [Nat.shiftRight_eq_div_pow]
  intro h0
  have : 2 ^ 63 / 2 ^ (64 - s) ≤ x.frac / 2 ^ (64 - s) := Nat.div_le_div_right h63
  rw [h0] at this
  have h1 : (1 : Nat) ≤ 2 ^ 63 / 2 ^ (64 - s) := by
    rw [Nat.le_div_iff_mul_le (by positivity)]
    calc 1 * 2 ^ (64 - s) = 2 ^ (64 - s) := one_mul _
      _ ≤ 2 ^ 63 := Nat.pow_le_pow_right (by norm_num) (by omega)
  omega

theorem checkShl_progress (x : FloatType) (s : Nat) (hs : 1 ≤ s) (hs2 : s ≤ 32)
    (h : 2 ^ (64 - 2 * s) ≤ x.frac) :
    2 ^ (64 - s) ≤ (checkShl x 64 s).frac := by
  unfold checkShl shl
  split
  case isTrue h0 =>
    simp only
    calc (2 : Nat) ^ (64 - s) = 2 ^ (64 - 2 * s) * 2 ^ s := by rw [← pow_add]; congr 1; omega
      _ ≤ x.frac * 2 ^ s := Nat.mul_le_mul_right _ h
      _ = x.frac <<< s := (Nat.shiftLeft_eq _ _).symm
      _ = (x.frac <<< s) % u64Mod := by
          rw [Nat.mod_eq_of_lt]
          rw [Nat.shiftLeft_eq, u64Mod]
          have hlt : x.frac < 2 ^ (64 - s) := by
            rw [Nat.shiftRight_eq_div_pow, Nat.div_eq_zero_iff (by positivity)] at h0
            exact h0
          calc x.frac * 2 ^ s < 2 ^ (64 - s) * 2 ^ s := (Nat.mul_lt_mul_right (by positivity)).mpr hlt
            _ = 2 ^ 64 := by rw [← pow_add]; congr 1; omega
  case isFalse h0 =>
    have : x.frac >>> (64 - s) ≠ 0 := h0
    rw [Nat.shiftRight_eq_div_pow] at this
    have h1 : 1 ≤ x.frac / 2 ^ (64 - s) := Nat.one_le_iff_ne_zero.mpr this
    rw [Nat.le_div_iff_mul_le (by positivity)] at h1
    simpa using h1

/-- After normalize the most-significant bit of the fraction is set,
for any non-zero fraction. -/
theorem normalize_msb (x : FloatType) (h0 : x.frac ≠ 0) :
    2 ^ 63 ≤ x.normalize.frac := by
  have h1 : 2 ^ (64 - 32) ≤ (checkShl x 64 32).frac :=
    checkShl_progress x 32 (by norm_num) (by norm_num)
      (by simpa using Nat.one_le_iff_ne_zero.mpr h0)
  have h2 : 2 ^ (64 - 16) ≤ (checkShl (checkShl x 64 32) 64 16).frac :=
    checkShl_progress _ 16 (by norm_num) (by norm_num) (by simpa using h1)
  have h3 : 2 ^ (64 - 8) ≤ (checkShl (checkShl (checkShl x 64 32) 64 16) 64 8).frac :=
    checkShl_progress _ 8 (by norm_num) (by norm_num) (by simpa using h2)
  have h4 : 2 ^ (64 - 4) ≤
      (checkShl (checkShl (checkShl (checkShl x 64 32) 64 16) 64 8) 64 4).frac :=
    checkShl_progress _ 4 (by norm_num) (by norm_num) (by simpa using h3)
  have h5 : 2 ^ (64 - 2) ≤
      (checkShl (checkShl (checkShl (checkShl (checkShl x 64 32) 64 16) 64 8) 64 4) 64 2).frac :=
    checkShl_progress _ 2 (by norm_num) (by norm_num) (by simpa using h4)
  have h6 : 2 ^ (64 - 1) ≤
      (checkShl (checkShl (checkShl (checkShl (checkShl (checkShl x 64 32) 64 16) 64 8) 64 4) 64 2) 64 1).frac :=
    checkShl_progress _ 1 (by norm_num) (by norm_num) (by simpa using h5)
  simpa [FloatType.normalize] using h6

/-- normalize written as one left shift: there is a k with
normalize x = {exp - k, frac * 2^k} and the result fits in 64 bits. -/
theorem normalize_shape (x : FloatType) (hx : x.frac < 2 ^ 64) :
    ∃ k : Nat, x.normalize = FloatType.mk (x.exp - k) (x.frac * 2 ^ k) ∧
      x.frac * 2 ^ k < 2 ^ 64 := by
  obtain ⟨j1, e1, b1⟩ := checkShl_cases x 32 (by norm_num) (by norm_num) hx
  obtain ⟨j2, e2, b2⟩ :=
    checkShl_cases (FloatType.mk (x.exp - j1) (x.frac * 2 ^ j1)) 16 (by norm_num) (by norm_num) b1
  simp only at e2 b2
  obtain ⟨j3, e3, b3⟩ :=
    checkShl_cases (FloatType.mk (x.exp - j1 - j2) (x.frac * 2 ^ j1 * 2 ^ j2)) 8
      (by norm_num) (by norm_num) b2
  simp only at e3 b3
  obtain ⟨j4, e4, b4⟩ :=
    checkShl_cases (FloatType.mk (x.exp - j1 - j2 - j3) (x.frac * 2 ^ j1 * 2 ^ j2 * 2 ^ j3)) 4
      (by norm_num) (by norm_num) b3
  simp only at e4 b4
  obtain ⟨j5, e5, b5⟩ :=
    checkShl_cases
      (FloatType.mk (x.exp - j1 - j2 - j3 - j4) (x.frac * 2 ^ j1 * 2 ^ j2 * 2 ^ j3 * 2 ^ j4)) 2
      (by norm_num) (by norm_num) b4
  simp only at e5 b5
  obtain ⟨j6, e6, b6⟩ :=
    checkShl_cases
      (FloatType.mk (x.exp - j1 - j2 - j3 - j4 - j5)
        (x.frac * 2 ^ j1 * 2 ^ j2 * 2 ^ j3 * 2 ^ j4 * 2 ^ j5)) 1
      (by norm_num) (by norm_num) b5
  simp only at e6 b6
  refine ⟨j1 + j2 + j3 + j4 + j5 + j6, ?_, ?_⟩
  · rw [FloatType.normalize, e1, e2, e3, e4, e5, e6]
    congr 1
    · push_cast; ring
    · ring
  · calc x.frac * 2 ^ (j1 + j2 + j3 + j4 + j5 + j6)
        = x.frac * 2 ^ j1 * 2 ^ j2 * 2 ^ j3 * 2 ^ j4 * 2 ^ j5 * 2 ^ j6 := by ring
      _ < 2 ^ 64 := b6

/-- normalize is the identity when the most-significant fraction bit is set. -/
theorem normalize_of_msb (x : FloatType) (h63 : 2 ^ 63 ≤ x.frac) :
    x.normalize = x := by
  rw [FloatType.normalize]
  rw [checkShl_msb x 32 (by norm_num) (by norm_num) h63]
  rw [checkShl_msb x 16 (by norm_num) (by norm_num) h63]
  rw [checkShl_msb x 8 (by norm_num) (by norm_num) h63]
  rw [checkShl_msb x 4 (by norm_num) (by norm_num) h63]
  rw [checkShl_msb x 2 (by norm_num) (by norm_num) h63]
  rw [checkShl_msb x 1 (by norm_num) (by norm_num) h63]

/-- normalize preserves the represented value. -/
theorem normalize_val (x : FloatType) (hx : x.frac < 2 ^ 64) :
    x.normalize.val = x.val := by
  obtain ⟨k, hk, _⟩ := normalize_shape x hx
  rw [hk, FloatType.val, FloatType.val]
  simp only
  push_cast
  rw [zpow_sub₀ (by norm_num : (2:ℚ) ≠ 0), zpow_natCast]
  field_simp
  ring


-- Bitwise helper lemmas

theorem lor_mod_two_pow (a b n : Nat) : (a ||| b) % 2 ^ n = a % 2 ^ n ||| b % 2 ^ n := by
  apply Nat.eq_of_testBit_eq
  intro i
  simp [Nat.testBit_mod_two_pow, Nat.testBit_lor, Bool.and_or_distrib_left]

theorem lor_shiftRight (a b n : Nat) : (a ||| b) >>> n = a >>> n ||| b >>> n := by
  apply Nat.eq_of_testBit_eq
  intro i
  simp [Nat.testBit_shiftRight, Nat.testBit_lor]

theorem lor_shiftLeft_eq_add (a c s : Nat) (h : a < 2 ^ s) :
    a ||| (c <<< s) = c * 2 ^ s + a := by
  have hmod : (a ||| c <<< s) % 2 ^ s = a := by
    rw [lor_mod_two_pow, Nat.shiftLeft_eq, Nat.mul_mod_left, Nat.mod_eq_of_lt h]
    simp
  have hdiv : (a ||| c <<< s) >>> s = c := by
    rw [lor_shiftRight, Nat.shiftLeft_eq, Nat.shiftRight_eq_div_pow,
      Nat.shiftRight_eq_div_pow, Nat.mul_div_cancel _ (by positivity), Nat.div_eq_of_lt h]
    simp
  have := Nat.div_add_mod (a ||| c <<< s) (2 ^ s)
  rw [← Nat.shiftRight_eq_div_pow] at this
  rw [hmod, hdiv] at this
  rw [Nat.mul_comm] at this
  omega

theorem and_mask_shiftRight (b k s : Nat) :
    (b &&& ((2 ^ k - 1) <<< s)) >>> s = b / 2 ^ s % 2 ^ k := by
  apply Nat.eq_of_testBit_eq
  intro i
  rw [Nat.testBit_shiftRight, Nat.testBit_and, Nat.testBit_shiftLeft,
    Nat.testBit_mod_two_pow, ← Nat.shiftRight_eq_div_pow, Nat.testBit_shiftRight]
  simp only [Nat.testBit_two_pow_sub_one]
  rcases Nat.lt_or_ge i k with hi | hi
  · simp [hi, Bool.and_comm]
  · have hik : ¬ i < k := by omega
    simp [hik]

theorem and_two_pow_eq_zero_of_lt (m k : Nat) (h : m < 2 ^ k) : m &&& 2 ^ k = 0 := by
  rw [Nat.and_two_pow]
  have : m.testBit k = false := Nat.testBit_lt_two_pow h
  rw [this]
  simp

theorem and_two_pow_eq_of_bounds (m k : Nat) (h1 : 2 ^ k ≤ m) (h2 : m < 2 ^ (k + 1)) :
    m &&& 2 ^ k = 2 ^ k := by
  rw [Nat.and_two_pow]
  have hq : m / 2 ^ k = 1 := by
    apply Nat.div_eq_of_lt_le (by simpa using h1)
    calc m < 2 ^ (k + 1) := h2
      _ = (1 + 1) * 2 ^ k := by ring
  have : m.testBit k = true := by
    rw [Nat.testBit_to_div_mod, hq]
    simp
  rw [this]
  simp


-- Evaluation of the rounding shift

theorem two_pow_div_two (s : Nat) (hs : 1 ≤ s) : (2:Nat) ^ s / 2 = 2 ^ (s - 1) := by
  cases s with
  | zero => omega
  | succ n => rw [pow_succ, Nat.mul_div_cancel _ (by norm_num), Nat.succ_sub_one]

theorem rneShift_mul_pow (m s t : Nat) (ht : 1 ≤ t) (hts : t ≤ s) :
    rneShift (m * 2 ^ s) t = m * 2 ^ (s - t) := by
  have h2t : (2:Nat) ^ t / 2 = 2 ^ (t - 1) := two_pow_div_two t ht
  have hpos : (1:Nat) ≤ 2 ^ (t - 1) := Nat.one_le_two_pow
  have hsplit : m * 2 ^ s = m * 2 ^ (s - t) * 2 ^ t := by
    rw [mul_assoc, ← pow_add]
    congr 2
    omega
  simp only [rneShift]
  rw [hsplit, Nat.mul_mod_left, Nat.mul_div_cancel _ (by positivity), h2t]
  rw [if_neg]
  push_neg
  refine ⟨by omega, fun h => ?_⟩
  omega

theorem and_two_pow_iff_odd_div (n k : Nat) :
    (n &&& 2 ^ k = 2 ^ k) ↔ (n / 2 ^ k % 2 = 1) := by
  have hne : (2:Nat) ^ k ≠ 0 := by positivity
  rw [Nat.and_two_pow, Nat.testBit_to_div_mod]
  by_cases hb : n / 2 ^ k % 2 = 1
  · simp [hb]
  · simp [hb, hne.symm]

theorem shiftToFloat_eval (sig shift : Nat) (tm tmid om cm : Nat)
    (hshift : 1 ≤ shift)
    (htm : tm = 2 ^ shift - 1) (htmid : tmid = 2 ^ (shift - 1))
    (hom : om = 2 ^ shift) (hcm : cm = 2 ^ (sig + 1))
    (x : FloatType) (hq : x.frac / 2 ^ shift < 2 ^ (sig + 1)) :
    shiftToFloat tm tmid om cm shift x =
      if rneShift x.frac shift = 2 ^ (sig + 1) then
        FloatType.mk (x.exp + shift + 1) (2 ^ sig)
      else FloatType.mk (x.exp + shift) (rneShift x.frac shift) := by
  subst htm htmid hom hcm
  have hrne : rneShift x.frac shift =
      x.frac / 2 ^ shift +
        (if 2 ^ (shift - 1) < x.frac % 2 ^ shift ∨
            (x.frac &&& 2 ^ shift = 2 ^ shift ∧ x.frac % 2 ^ shift = 2 ^ (shift - 1))
         then 1 else 0) := by
    simp only [rneShift, two_pow_div_two shift hshift, and_two_pow_iff_odd_div, and_comm]
    split <;> omega
  simp only [shiftToFloat, shr, Nat.and_pow_two_sub_one_eq_mod, Nat.shiftRight_eq_div_pow, hrne]
  set f := x.frac / 2 ^ shift +
      (if 2 ^ (shift - 1) < x.frac % 2 ^ shift ∨
          (x.frac &&& 2 ^ shift = 2 ^ shift ∧ x.frac % 2 ^ shift = 2 ^ (shift - 1))
       then 1 else 0) with hfdef
  have hfle : f ≤ 2 ^ (sig + 1) := by
    rw [hfdef]
    split <;> omega
  by_cases hcarry : f = 2 ^ (sig + 1)
  · have hand : f &&& 2 ^ (sig + 1) = 2 ^ (sig + 1) := by
      rw [hcarry]
      exact and_two_pow_eq_of_bounds _ _ (le_refl _) (Nat.pow_lt_pow_succ (by norm_num))
    rw [if_pos hand, if_pos hcarry]
    have hhalf : f / 2 ^ 1 = 2 ^ sig := by
      rw [hcarry, pow_one, pow_succ, Nat.mul_div_cancel _ (by norm_num)]
    rw [hhalf]
  · have hlt : f < 2 ^ (sig + 1) := by omega
    have hand : ¬ (f &&& 2 ^ (sig + 1) = 2 ^ (sig + 1)) := by
      rw [and_two_pow_eq_zero_of_lt _ _ hlt]
      exact fun h => absurd h.symm (by positivity)
    rw [if_neg hand, if_neg hcarry]

-- No-op conditions for the two fixups

theorem avoidUnderflow_of_ge (denormal : Int) (x : FloatType) (h : denormal ≤ x.exp) :
    avoidUnderflow denormal x = x := by
  rw [avoidUnderflow, if_neg (not_lt.mpr h)]

theorem avoidOverflow_of_lt (maxE : Int) (masks : List Nat) (x : FloatType)
    (h : x.exp < maxE) : avoidOverflow maxE masks x = x := by
  rw [avoidOverflow, if_neg (not_le.mpr h)]

theorem avoidOverflow_of_hidden (maxE : Int) (masks : List Nat) (x : FloatType) (sig : Nat)
    (hbit : x.frac.testBit sig = true)
    (hmasks : ∀ i (h : i < masks.length), (masks.get ⟨i, h⟩).testBit sig = true) :
    avoidOverflow maxE masks x = x := by
  rw [avoidOverflow]
  split
  · split
    case isTrue hdlen =>
      rw [if_neg]
      intro h0
      have htb := hmasks _ hdlen
      have hres : (x.frac &&& masks.get ⟨(x.exp - maxE).toNat, hdlen⟩).testBit sig = true := by
        rw [Nat.testBit_and, hbit, htb]
        rfl
      rw [h0] at hres
      simp at hres
    case isFalse => rfl
  · rfl

theorem testBit_of_bounds (m k : Nat) (h1 : 2 ^ k ≤ m) (h2 : m < 2 ^ (k + 1)) :
    m.testBit k = true := by
  rw [Nat.testBit_to_div_mod]
  have hq : m / 2 ^ k = 1 := by
    apply Nat.div_eq_of_lt_le (by simpa using h1)
    calc m < 2 ^ (k + 1) := h2
      _ = (1 + 1) * 2 ^ k := by ring
  simp [hq]

theorem masksF64_hidden : ∀ i (h : i < masksF64.length), (masksF64.get ⟨i, h⟩).testBit 52 = true := by decide

theorem masksF32_hidden : ∀ i (h : i < masksF32.length), (masksF32.get ⟨i, h⟩).testBit 23 = true := by decide


theorem rneShift_bounds (p t : Nat) :
    p / 2 ^ t ≤ rneShift p t ∧ rneShift p t ≤ p / 2 ^ t + 1 := by
  simp only [rneShift]
  split <;> omega

/-- Full evaluation of the shift/underflow/overflow/export pipeline of
as_float on an already-normalized input whose exponent is large enough that
the underflow fixup cannot fire: the result is the round-to-nearest
ties-to-even encoding at the fixed significand position, or infinity
once the exponent reaches the maximum. -/
theorem asFloatBits_pipeline_of_msb
    (sig shift : Nat) (denormal bias maxE : Int) (inf : Nat) (masks : List Nat)
    (tm tmid om cm fractionMask : Nat)
    (hshsig : sig + shift = 63) (hsig : 1 ≤ sig) (hsig62 : sig ≤ 62)
    (hden : denormal = -bias + 1)
    (htm : tm = 2 ^ shift - 1) (htmid : tmid = 2 ^ (shift - 1))
    (hom : om = 2 ^ shift) (hcm : cm = 2 ^ (sig + 1))
    (hfr : fractionMask = 2 ^ sig - 1)
    (hmasks : ∀ i (h : i < masks.length), (masks.get ⟨i, h⟩).testBit sig = true)
    (e : Int) (F : Nat) (h1 : 2 ^ 63 ≤ F) (h2 : F < 2 ^ 64)
    (he : denormal ≤ e + shift) :
    asFloatBits denormal (2 ^ sig) fractionMask bias maxE inf sig
      (avoidOverflow maxE masks
        (avoidUnderflow denormal
          (shiftToFloat tm tmid om cm shift (FloatType.mk e F)))) =
      if rneShift F shift = 2 ^ (sig + 1) then
        (if maxE ≤ e + shift + 1 then inf else (e + shift + 1 + bias).toNat * 2 ^ sig)
      else
        (if maxE ≤ e + shift then inf
         else (rneShift F shift - 2 ^ sig) + (e + shift + bias).toNat * 2 ^ sig) := by
  have hshift1 : 1 ≤ shift := by omega
  have hpows : (2:Nat) ^ (sig + 1) * 2 ^ shift = 2 ^ 64 := by
    rw [← pow_add]
    congr 1
    omega
  have hpowsig : (2:Nat) ^ 63 = 2 ^ sig * 2 ^ shift := by
    rw [← pow_add]
    congr 1
    omega
  have hq53 : F / 2 ^ shift < 2 ^ (sig + 1) := by
    rw [Nat.div_lt_iff_lt_mul (by positivity)]
    calc F < 2 ^ 64 := h2
      _ = 2 ^ (sig + 1) * 2 ^ shift := hpows.symm
  have hq52 : 2 ^ sig ≤ F / 2 ^ shift := by
    rw [Nat.le_div_iff_mul_le (by positivity)]
    calc (2:Nat) ^ sig * 2 ^ shift = 2 ^ 63 := hpowsig.symm
      _ ≤ F := h1
  have hbnd := rneShift_bounds F shift
  have hmlo : 2 ^ sig ≤ rneShift F shift := le_trans hq52 hbnd.1
  have hmhi : rneShift F shift ≤ 2 ^ (sig + 1) := by omega
  have hplus : (2:Nat) ^ (sig + 1) = 2 * 2 ^ sig := by ring
  have hsigpos : (1:Nat) ≤ 2 ^ sig := Nat.one_le_two_pow
  rw [shiftToFloat_eval sig shift tm tmid om cm hshift1 htm htmid hom hcm _ hq53]
  by_cases hcarry : rneShift F shift = 2 ^ (sig + 1)
  · rw [if_pos hcarry, if_pos hcarry]
    rw [avoidUnderflow_of_ge _ _ (by dsimp only; omega)]
    rw [avoidOverflow_of_hidden _ _ _ sig (by dsimp only; exact Nat.testBit_two_pow_self) hmasks]
    rw [asFloatBits]
    rw [if_neg (by
      dsimp only
      push_neg
      exact ⟨by positivity, by omega⟩)]
    by_cases hov : maxE ≤ e + shift + 1
    · rw [if_pos (by dsimp only; omega), if_pos hov]
    · rw [if_neg (by dsimp only; omega), if_neg hov]
      rw [if_neg (by
        dsimp only
        intro hcon
        have hbit := and_two_pow_eq_of_bounds (2 ^ sig) sig (le_refl _) (by omega)
        rw [hbit] at hcon
        have hne : (2:Nat) ^ sig ≠ 0 := by positivity
        exact hne hcon.2)]
      dsimp only
      rw [hfr, Nat.and_pow_two_sub_one_eq_mod, Nat.mod_self]
      rw [Nat.zero_or, Nat.shiftLeft_eq]
  · rw [if_neg hcarry, if_neg hcarry]
    have hmhi2 : rneShift F shift < 2 ^ (sig + 1) := by omega
    rw [avoidUnderflow_of_ge _ _ (by dsimp only; omega)]
    rw [avoidOverflow_of_hidden _ _ _ sig
      (by dsimp only; exact testBit_of_bounds _ _ hmlo hmhi2) hmasks]
    rw [asFloatBits]
    rw [if_neg (by
      dsimp only
      push_neg
      exact ⟨by omega, by omega⟩)]
    by_cases hov : maxE ≤ e + shift
    · rw [if_pos (by dsimp only; omega), if_pos hov]
    · rw [if_neg (by dsimp only; omega), if_neg hov]
      rw [if_neg (by
        dsimp only
        intro hcon
        have hbit := and_two_pow_eq_of_bounds (rneShift F shift) sig hmlo hmhi2
        rw [hbit] at hcon
        have hne : (2:Nat) ^ sig ≠ 0 := by positivity
        exact hne hcon.2)]
      dsimp only
      rw [hfr, Nat.and_pow_two_sub_one_eq_mod]
      have hmod : rneShift F shift % 2 ^ sig = rneShift F shift - 2 ^ sig := by
        rw [Nat.mod_eq_sub_mod hmlo, Nat.mod_eq_of_lt (by omega)]
      rw [hmod]
      rw [lor_shiftLeft_eq_add _ _ _ (by omega)]
      omega


/-- Full evaluation of the as_float pipeline on a normalized input that
came from shifting a subnormal fraction f left by k bits: the rounding
shift is exact and avoid_underflow shifts the fraction straight back. -/
theorem asFloatBits_pipeline_subnormal
    (sig shift : Nat) (denormal bias maxE : Int) (inf : Nat) (masks : List Nat)
    (tm tmid om cm fractionMask : Nat)
    (hshsig : sig + shift = 63) (hsig : 1 ≤ sig) (hsig62 : sig ≤ 62)
    (htm : tm = 2 ^ shift - 1) (htmid : tmid = 2 ^ (shift - 1))
    (hom : om = 2 ^ shift) (hcm : cm = 2 ^ (sig + 1))
    (hfr : fractionMask = 2 ^ sig - 1)
    (hdenmax : denormal < maxE)
    (f k : Nat) (e : Int) (he : e = denormal - (k : Int))
    (hk1 : shift + 1 ≤ k) (hk63 : k ≤ 63)
    (hf1 : 1 ≤ f) (hfsig : f < 2 ^ sig)
    (hnorm : 2 ^ 63 ≤ f * 2 ^ k) (hnorm2 : f * 2 ^ k < 2 ^ 64) :
    asFloatBits denormal (2 ^ sig) fractionMask bias maxE inf sig
      (avoidOverflow maxE masks
        (avoidUnderflow denormal
          (shiftToFloat tm tmid om cm shift (FloatType.mk e (f * 2 ^ k))))) = f := by
  have hshift1 : 1 ≤ shift := by omega
  have hq : (f * 2 ^ k) / 2 ^ shift < 2 ^ (sig + 1) := by
    rw [Nat.div_lt_iff_lt_mul (by positivity)]
    calc f * 2 ^ k < 2 ^ 64 := hnorm2
      _ = 2 ^ (sig + 1) * 2 ^ shift := by rw [← pow_add]; congr 1; omega
  have hrne : rneShift (f * 2 ^ k) shift = f * 2 ^ (k - shift) :=
    rneShift_mul_pow f k shift hshift1 (by omega)
  have hexact : f * 2 ^ k / 2 ^ shift = f * 2 ^ (k - shift) := by
    rw [show f * 2 ^ k = f * 2 ^ (k - shift) * 2 ^ shift by
      rw [mul_assoc, ← pow_add]; congr 2; omega]
    rw [Nat.mul_div_cancel _ (by positivity)]
  have hnocarry : f * 2 ^ (k - shift) < 2 ^ (sig + 1) := by
    rw [← hexact]
    exact hq
  rw [shiftToFloat_eval sig shift tm tmid om cm hshift1 htm htmid hom hcm _ hq]
  rw [hrne, if_neg (by omega)]
  rw [avoidUnderflow]
  rw [if_pos (by dsimp only; omega)]
  rw [if_pos (by
    dsimp only
    have hd : (denormal - (e + (shift:Int))).toNat = k - shift := by omega
    rw [hd, Nat.shiftRight_eq_div_pow, Nat.mul_div_cancel _ (by positivity)]
    omega)]
  dsimp only
  have hd : (denormal - (e + (shift:Int))).toNat = k - shift := by omega
  rw [hd, Nat.shiftRight_eq_div_pow, Nat.mul_div_cancel _ (by positivity)]
  have hexp : e + (shift:Int) + ((k - shift : Nat) : Int) = denormal := by
    omega
  rw [hexp]
  rw [avoidOverflow_of_lt _ _ _ (by dsimp only; omega)]
  rw [asFloatBits]
  rw [if_neg (by dsimp only; push_neg; exact ⟨by omega, by omega⟩)]
  rw [if_neg (by dsimp only; omega)]
  rw [if_pos (by
    dsimp only
    exact ⟨rfl, and_two_pow_eq_zero_of_lt f sig hfsig⟩)]
  dsimp only
  rw [hfr, Nat.and_pow_two_sub_one_eq_mod, Nat.mod_eq_of_lt hfsig]
  simp


-- from_float characterizations

theorem fromF64bits_normal (b : Nat) (hb : b < 2 ^ 63) (h : b / 2 ^ 52 ≠ 0) :
    fromF64bits b =
      FloatType.mk (((b / 2 ^ 52 : Nat) : Int) - 1075) (b % 2 ^ 52 + 2 ^ 52) := by
  have hexp : (b &&& F64_EXPONENT_MASK) >>> F64_SIGNIFICAND_SIZE = b / 2 ^ 52 := by
    rw [show F64_EXPONENT_MASK = (2 ^ 11 - 1) <<< 52 by decide,
      show F64_SIGNIFICAND_SIZE = 52 from rfl, and_mask_shiftRight b 11 52]
    have hlt : b / 2 ^ 52 < 2 ^ 11 := by
      rw [Nat.div_lt_iff_lt_mul (by positivity)]
      calc b < 2 ^ 63 := hb
        _ = 2 ^ 11 * 2 ^ 52 := by norm_num
    exact Nat.mod_eq_of_lt hlt
  rw [fromF64bits]
  simp only [hexp]
  rw [if_pos (by
    simpa using fun hcon => h (by exact_mod_cast hcon))]
  rw [show F64_FRACTION_MASK = 2 ^ 52 - 1 by decide, Nat.and_pow_two_sub_one_eq_mod]
  simp only [FloatType.mk.injEq]
  exact ⟨by norm_num [F64_EXPONENT_BIAS], by norm_num [F64_HIDDEN_BIT_MASK]⟩

theorem fromF64bits_sub (b : Nat) (hb : b < 2 ^ 52) (h : b / 2 ^ 52 = 0) :
    fromF64bits b = FloatType.mk (-1074) b := by
  have hexp : (b &&& F64_EXPONENT_MASK) >>> F64_SIGNIFICAND_SIZE = b / 2 ^ 52 := by
    rw [show F64_EXPONENT_MASK = (2 ^ 11 - 1) <<< 52 by decide,
      show F64_SIGNIFICAND_SIZE = 52 from rfl, and_mask_shiftRight b 11 52]
    rw [h]
    simp
  rw [fromF64bits]
  simp only [hexp, h]
  rw [if_neg (by simp)]
  rw [show F64_FRACTION_MASK = 2 ^ 52 - 1 by decide, Nat.and_pow_two_sub_one_eq_mod]
  simp only [FloatType.mk.injEq]
  exact ⟨by norm_num [F64_EXPONENT_BIAS], Nat.mod_eq_of_lt hb⟩

theorem fromF32bits_normal (b : Nat) (hb : b < 2 ^ 31) (h : b / 2 ^ 23 ≠ 0) :
    fromF32bits b =
      FloatType.mk (((b / 2 ^ 23 : Nat) : Int) - 150) (b % 2 ^ 23 + 2 ^ 23) := by
  have hexp : (b &&& F32_EXPONENT_MASK) >>> F32_SIGNIFICAND_SIZE = b / 2 ^ 23 := by
    rw [show F32_EXPONENT_MASK = (2 ^ 8 - 1) <<< 23 by decide,
      show F32_SIGNIFICAND_SIZE = 23 from rfl, and_mask_shiftRight b 8 23]
    have hlt : b / 2 ^ 23 < 2 ^ 8 := by
      rw [Nat.div_lt_iff_lt_mul (by positivity)]
      calc b < 2 ^ 31 := hb
        _ = 2 ^ 8 * 2 ^ 23 := by norm_num
    exact Nat.mod_eq_of_lt hlt
  rw [fromF32bits]
  simp only [hexp]
  rw [if_pos (by
    simpa using fun hcon => h (by exact_mod_cast hcon))]
  rw [show F32_FRACTION_MASK = 2 ^ 23 - 1 by decide, Nat.and_pow_two_sub_one_eq_mod]
  simp only [FloatType.mk.injEq]
  exact ⟨by norm_num [F32_EXPONENT_BIAS], by norm_num [F32_HIDDEN_BIT_MASK]⟩

theorem fromF32bits_sub (b : Nat) (hb : b < 2 ^ 23) (h : b / 2 ^ 23 = 0) :
    fromF32bits b = FloatType.mk (-149) b := by
  have hexp : (b &&& F32_EXPONENT_MASK) >>> F32_SIGNIFICAND_SIZE = b / 2 ^ 23 := by
    rw [show F32_EXPONENT_MASK = (2 ^ 8 - 1) <<< 23 by decide,
      show F32_SIGNIFICAND_SIZE = 23 from rfl, and_mask_shiftRight b 8 23]
    rw [h]
    simp
  rw [fromF32bits]
  simp only [hexp, h]
  rw [if_neg (by simp)]
  rw [show F32_FRACTION_MASK = 2 ^ 23 - 1 by decide, Nat.and_pow_two_sub_one_eq_mod]
  simp only [FloatType.mk.injEq]
  exact ⟨by norm_num [F32_EXPONENT_BIAS], Nat.mod_eq_of_lt hb⟩

-- Round trip, 64-bit

theorem from_as_f64 (b : Nat) (h1 : 1 ≤ b) (h2 : b < U64_INFINITY) :
    (fromF64bits b).asF64bits = b := by
  have hb63 : b < 2 ^ 63 := lt_of_lt_of_le h2 (by norm_num [U64_INFINITY])
  by_cases hef : b / 2 ^ 52 = 0
  · have hblt : b < 2 ^ 52 := by omega
    rw [fromF64bits_sub b hblt hef]
    rw [FloatType.asF64bits, normalizeToF64]
    obtain ⟨k, hk, hkb⟩ := normalize_shape (FloatType.mk (-1074) b)
      (by show b < 2 ^ 64; omega)
    have hmsb := normalize_msb (FloatType.mk (-1074) b) (by show b ≠ 0; omega)
    rw [hk] at hmsb
    dsimp only at hmsb hkb
    have hk12 : 12 ≤ k := by
      by_contra hcon
      push_neg at hcon
      have hlt : b * 2 ^ k < 2 ^ 63 := by
        calc b * 2 ^ k < 2 ^ 52 * 2 ^ k := (Nat.mul_lt_mul_right (by positivity)).mpr hblt
          _ = 2 ^ (52 + k) := by rw [pow_add]
          _ ≤ 2 ^ 63 := Nat.pow_le_pow_right (by norm_num) (by omega)
      omega
    have hk63 : k ≤ 63 := by
      by_contra hcon
      push_neg at hcon
      have hge : 2 ^ 64 ≤ b * 2 ^ k := by
        calc (2:Nat) ^ 64 ≤ 2 ^ k := Nat.pow_le_pow_right (by norm_num) (by omega)
          _ ≤ b * 2 ^ k := Nat.le_mul_of_pos_left _ (by omega)
      omega
    rw [hk, shiftToF64]
    rw [show F64_HIDDEN_BIT_MASK = 2 ^ 52 by decide,
      show F64_SIGNIFICAND_SIZE = 52 from rfl]
    exact asFloatBits_pipeline_subnormal 52 11 F64_DENORMAL_EXPONENT F64_EXPONENT_BIAS
      F64_MAX_EXPONENT U64_INFINITY masksF64 _ _ _ _ _
      (by norm_num) (by norm_num) (by norm_num) (by norm_num) (by norm_num) (by norm_num)
      (by decide) (by decide) (by decide)
      b k _ (by rw [show F64_DENORMAL_EXPONENT = -1074 from by decide])
      (by omega) hk63 (by omega) hblt hmsb hkb
  · have hef1 : 1 ≤ b / 2 ^ 52 := Nat.one_le_iff_ne_zero.mpr hef
    have heflt : b / 2 ^ 52 < 0x7FF := by
      rw [Nat.div_lt_iff_lt_mul (by positivity)]
      calc b < U64_INFINITY := h2
        _ = 0x7FF * 2 ^ 52 := by decide
    have hdm := Nat.div_add_mod b (2 ^ 52)
    have hfrb : b % 2 ^ 52 < 2 ^ 52 := Nat.mod_lt _ (by positivity)
    rw [fromF64bits_normal b hb63 hef]
    rw [FloatType.asF64bits, normalizeToF64]
    obtain ⟨k, hk, hkb⟩ := normalize_shape
      (FloatType.mk (((b / 2 ^ 52 : Nat) : Int) - 1075) (b % 2 ^ 52 + 2 ^ 52))
      (by show b % 2 ^ 52 + 2 ^ 52 < 2 ^ 64; omega)
    have hmsb := normalize_msb
      (FloatType.mk (((b / 2 ^ 52 : Nat) : Int) - 1075) (b % 2 ^ 52 + 2 ^ 52))
      (by show b % 2 ^ 52 + 2 ^ 52 ≠ 0; omega)
    rw [hk] at hmsb
    dsimp only at hmsb hkb
    have hk11 : k = 11 := by
      have hlow : 2 ^ (52 + k) ≤ (b % 2 ^ 52 + 2 ^ 52) * 2 ^ k := by
        rw [pow_add]
        exact Nat.mul_le_mul_right _ (by omega)
      have hhigh : (b % 2 ^ 52 + 2 ^ 52) * 2 ^ k < 2 ^ (53 + k) := by
        rw [pow_add]
        exact (Nat.mul_lt_mul_right (by positivity)).mpr (by omega)
      have ha : 2 ^ (52 + k) < 2 ^ 64 := lt_of_le_of_lt hlow hkb
      have hb2 : 2 ^ 63 < 2 ^ (53 + k) := lt_of_le_of_lt hmsb hhigh
      have ha2 := (Nat.pow_lt_pow_iff_right (by norm_num : 1 < 2)).mp ha
      have hb3 := (Nat.pow_lt_pow_iff_right (by norm_num : 1 < 2)).mp hb2
      omega
    subst hk11
    rw [hk, shiftToF64]
    rw [show F64_HIDDEN_BIT_MASK = 2 ^ 52 by decide,
      show F64_SIGNIFICAND_SIZE = 52 from rfl]
    rw [asFloatBits_pipeline_of_msb 52 11 F64_DENORMAL_EXPONENT F64_EXPONENT_BIAS
      F64_MAX_EXPONENT U64_INFINITY masksF64 _ _ _ _ _
      (by norm_num) (by norm_num) (by norm_num) (by decide) (by norm_num) (by norm_num)
      (by norm_num) (by decide) (by decide) masksF64_hidden
      _ _ hmsb hkb
      (by rw [show F64_DENORMAL_EXPONENT = -1074 from by decide]; push_cast; omega)]
    rw [rneShift_mul_pow (b % 2 ^ 52 + 2 ^ 52) 11 11 (by norm_num) (le_refl _)]
    rw [Nat.sub_self, pow_zero, Nat.mul_one]
    rw [if_neg (by omega)]
    rw [if_neg (by
      rw [show F64_MAX_EXPONENT = 972 from by decide]
      push_cast
      omega)]
    have hexp : ((b / 2 ^ 52 : Nat) : Int) - 1075 - (11:Nat) + (11:Nat) + F64_EXPONENT_BIAS
        = ((b / 2 ^ 52 : Nat) : Int) := by
      rw [show F64_EXPONENT_BIAS = 1075 from by decide]
      push_cast
      ring
    rw [hexp, Int.toNat_natCast]
    omega

-- Round trip, 32-bit

theorem from_as_f32 (b : Nat) (h1 : 1 ≤ b) (h2 : b < U32_INFINITY) :
    (fromF32bits b).asF32bits = b := by
  have hb31 : b < 2 ^ 31 := lt_of_lt_of_le h2 (by norm_num [U32_INFINITY])
  by_cases hef : b / 2 ^ 23 = 0
  · have hblt : b < 2 ^ 23 := by omega
    rw [fromF32bits_sub b hblt hef]
    rw [FloatType.asF32bits, normalizeToF32]
    obtain ⟨k, hk, hkb⟩ := normalize_shape (FloatType.mk (-149) b)
      (by show b < 2 ^ 64; omega)
    have hmsb := normalize_msb (FloatType.mk (-149) b) (by show b ≠ 0; omega)
    rw [hk] at hmsb
    dsimp only at hmsb hkb
    have hk41 : 41 ≤ k := by
      by_contra hcon
      push_neg at hcon
      have hlt : b * 2 ^ k < 2 ^ 63 := by
        calc b * 2 ^ k < 2 ^ 23 * 2 ^ k := (Nat.mul_lt_mul_right (by positivity)).mpr hblt
          _ = 2 ^ (23 + k) := by rw [pow_add]
          _ ≤ 2 ^ 63 := Nat.pow_le_pow_right (by norm_num) (by omega)
      omega
    have hk63 : k ≤ 63 := by
      by_contra hcon
      push_neg at hcon
      have hge : 2 ^ 64 ≤ b * 2 ^ k := by
        calc (2:Nat) ^ 64 ≤ 2 ^ k := Nat.pow_le_pow_right (by norm_num) (by omega)
          _ ≤ b * 2 ^ k := Nat.le_mul_of_pos_left _ (by omega)
      omega
    rw [hk, shiftToF32]
    rw [show F32_HIDDEN_BIT_MASK = 2 ^ 23 by decide,
      show F32_SIGNIFICAND_SIZE = 23 from rfl]
    exact asFloatBits_pipeline_subnormal 23 40 F32_DENORMAL_EXPONENT F32_EXPONENT_BIAS
      F32_MAX_EXPONENT U32_INFINITY masksF32 _ _ _ _ _
      (by norm_num) (by norm_num) (by norm_num) (by norm_num) (by norm_num) (by norm_num)
      (by decide) (by decide) (by decide)
      b k _ (by rw [show F32_DENORMAL_EXPONENT = -149 from by decide])
      (by omega) hk63 (by omega) hblt hmsb hkb
  · have hef1 : 1 ≤ b / 2 ^ 23 := Nat.one_le_iff_ne_zero.mpr hef
    have heflt : b / 2 ^ 23 < 0xFF := by
      rw [Nat.div_lt_iff_lt_mul (by positivity)]
      calc b < U32_INFINITY := h2
        _ = 0xFF * 2 ^ 23 := by decide
    have hdm := Nat.div_add_mod b (2 ^ 23)
    have hfrb : b % 2 ^ 23 < 2 ^ 23 := Nat.mod_lt _ (by positivity)
    rw [fromF32bits_normal b hb31 hef]
    rw [FloatType.asF32bits, normalizeToF32]
    obtain ⟨k, hk, hkb⟩ := normalize_shape
      (FloatType.mk (((b / 2 ^ 23 : Nat) : Int) - 150) (b % 2 ^ 23 + 2 ^ 23))
      (by show b % 2 ^ 23 + 2 ^ 23 < 2 ^ 64; omega)
    have hmsb := normalize_msb
      (FloatType.mk (((b / 2 ^ 23 : Nat) : Int) - 150) (b % 2 ^ 23 + 2 ^ 23))
      (by show b % 2 ^ 23 + 2 ^ 23 ≠ 0; omega)
    rw [hk] at hmsb
    dsimp only at hmsb hkb
    have hk40 : k = 40 := by
      have hlow : 2 ^ (23 + k) ≤ (b % 2 ^ 23 + 2 ^ 23) * 2 ^ k := by
        rw [pow_add]
        exact Nat.mul_le_mul_right _ (by omega)
      have hhigh : (b % 2 ^ 23 + 2 ^ 23) * 2 ^ k < 2 ^ (24 + k) := by
        rw [pow_add]
        exact (Nat.mul_lt_mul_right (by positivity)).mpr (by omega)
      have ha : 2 ^ (23 + k) < 2 ^ 64 := lt_of_le_of_lt hlow hkb
      have hb2 : 2 ^ 63 < 2 ^ (24 + k) := lt_of_le_of_lt hmsb hhigh
      have ha2 := (Nat.pow_lt_pow_iff_right (by norm_num : 1 < 2)).mp ha
      have hb3 := (Nat.pow_lt_pow_iff_right (by norm_num : 1 < 2)).mp hb2
      omega
    subst hk40
    rw [hk, shiftToF32]
    rw [show F32_HIDDEN_BIT_MASK = 2 ^ 23 by decide,
      show F32_SIGNIFICAND_SIZE = 23 from rfl]
    rw [asFloatBits_pipeline_of_msb 23 40 F32_DENORMAL_EXPONENT F32_EXPONENT_BIAS
      F32_MAX_EXPONENT U32_INFINITY masksF32 _ _ _ _ _
      (by norm_num) (by norm_num) (by norm_num) (by decide) (by norm_num) (by norm_num)
      (by norm_num) (by decide) (by decide) masksF32_hidden
      _ _ hmsb hkb
      (by rw [show F32_DENORMAL_EXPONENT = -149 from by decide]; push_cast; omega)]
    rw [rneShift_mul_pow (b % 2 ^ 23 + 2 ^ 23) 40 40 (by norm_num) (le_refl _)]
    rw [Nat.sub_self, pow_zero, Nat.mul_one]
    rw [if_neg (by omega)]
    rw [if_neg (by
      rw [show F32_MAX_EXPONENT = 105 from by decide]
      push_cast
      omega)]
    have hexp : ((b / 2 ^ 23 : Nat) : Int) - 150 - (40:Nat) + (40:Nat) + F32_EXPONENT_BIAS
        = ((b / 2 ^ 23 : Nat) : Int) := by
      rw [show F32_EXPONENT_BIAS = 150 from by decide]
      push_cast
      ring
    rw [hexp, Int.toNat_natCast]
    omega


-- natLog2 characterization

theorem natLog2Aux_spec :
    ∀ fuel n : Nat, 1 ≤ n → n ≤ fuel →
      2 ^ natLog2Aux fuel n ≤ n ∧ n < 2 ^ (natLog2Aux fuel n + 1) := by
  intro fuel
  induction fuel with
  | zero => intro n h1 h2; omega
  | succ f ih =>
      intro n h1 h2
      rw [natLog2Aux]
      by_cases h : 2 ≤ n
      · rw [if_pos h]
        have hrec := ih (n / 2) (by omega) (by omega)
        set L := natLog2Aux f (n / 2) with hL
        have hp1 : (2:Nat) ^ (L + 1) = 2 * 2 ^ L := by ring
        have hp2 : (2:Nat) ^ (L + 1 + 1) = 2 * 2 ^ (L + 1) := by ring
        constructor
        · rw [hp1]; omega
        · rw [hp2, hp1]; omega
      · rw [if_neg h]
        omega

theorem natLog2_spec (n : Nat) (h : 1 ≤ n) :
    2 ^ natLog2 n ≤ n ∧ n < 2 ^ (natLog2 n + 1) :=
  natLog2Aux_spec n n h (le_refl n)

theorem natLog2_eq_of (n k : Nat) (h1 : 2 ^ k ≤ n) (h2 : n < 2 ^ (k + 1)) :
    natLog2 n = k := by
  have hn : 1 ≤ n := le_trans (Nat.one_le_two_pow) h1
  obtain ⟨ha, hb⟩ := natLog2_spec n hn
  set L := natLog2 n
  rcases Nat.lt_trichotomy L k with h | h | h
  · have : 2 ^ (L + 1) ≤ 2 ^ k := Nat.pow_le_pow_right (by norm_num) (by omega)
    omega
  · exact h
  · have : 2 ^ (k + 1) ≤ 2 ^ L := Nat.pow_le_pow_right (by norm_num) (by omega)
    omega

theorem natLog2_mul_pow (p k : Nat) (hp : 1 ≤ p) :
    natLog2 (p * 2 ^ k) = natLog2 p + k := by
  obtain ⟨ha, hb⟩ := natLog2_spec p hp
  apply natLog2_eq_of
  · rw [pow_add]
    exact Nat.mul_le_mul_right _ ha
  · rw [show natLog2 p + k + 1 = natLog2 p + 1 + k by omega, pow_add]
    exact (Nat.mul_lt_mul_right (by positivity)).mpr hb

-- roundDyadic is invariant under shifting the dyadic representation

theorem rneShift_scale (p k s : Nat) (hs : 1 ≤ s) :
    rneShift (p * 2 ^ k) (s + k) = rneShift p s := by
  have hq : p * 2 ^ k / 2 ^ (s + k) = p / 2 ^ s := by
    rw [pow_add, Nat.mul_comm (2 ^ s), ← Nat.div_div_eq_div_mul,
      Nat.mul_div_cancel _ (by positivity)]
  have hr : p * 2 ^ k % 2 ^ (s + k) = p % 2 ^ s * 2 ^ k := by
    rw [pow_add, Nat.mul_mod_mul_right]
  have hhalf : (2:Nat) ^ (s + k) / 2 = 2 ^ (s - 1) * 2 ^ k := by
    rw [two_pow_div_two _ (by omega), ← pow_add]
    congr 1
    omega
  have h1 : ∀ a b : Nat, (a * 2 ^ k < b * 2 ^ k) ↔ (a < b) := fun a b =>
    Nat.mul_lt_mul_right (by positivity)
  have h2 : ∀ a b : Nat, (a * 2 ^ k = b * 2 ^ k) ↔ (a = b) := fun a b => by
    constructor
    · intro h
      exact Nat.eq_of_mul_eq_mul_right (by positivity) h
    · intro h
      rw [h]
  simp only [rneShift, hq, hr, hhalf, two_pow_div_two s hs, h1, h2]

theorem roundQuantum_mul_pow (sig : Nat) (emin : Int) (p k : Nat) (t : Int) (hp : 1 ≤ p) :
    roundQuantum sig emin (p * 2 ^ k) (t - k) = roundQuantum sig emin p t := by
  rw [roundQuantum, roundQuantum, natLog2_mul_pow p k hp]
  congr 1
  push_cast
  ring

theorem roundMantissa_mul_pow (p k : Nat) (t q : Int) (hq : q - t ≤ 0 ∨ 1 ≤ q - t) :
    roundMantissa (p * 2 ^ k) (t - k) q = roundMantissa p t q := by
  rw [roundMantissa, roundMantissa]
  rcases hq with hle | hge
  · rw [if_pos hle]
    by_cases hk : q - (t - k) ≤ 0
    · rw [if_pos hk, Nat.shiftLeft_eq, Nat.shiftLeft_eq, mul_assoc, ← pow_add]
      have he : k + (t - k - q).toNat = (t - q).toNat := by omega
      rw [he]
    · rw [if_neg hk]
      push_neg at hk
      have hsk : (q - (t - k)).toNat ≤ k := by omega
      rw [rneShift_mul_pow p k (q - (t - k)).toNat (by omega) hsk]
      rw [Nat.shiftLeft_eq]
      have he : k - (q - (t - (k:Int))).toNat = (t - q).toNat := by omega
      rw [he]
  · rw [if_neg (by omega), if_neg (by omega)]
    have hsplit : (q - (t - k)).toNat = (q - t).toNat + k := by omega
    rw [hsplit, rneShift_scale p k (q - t).toNat (by omega)]

/-- The reference conversion depends only on the real value p * 2^t:
shifting the dyadic pair leaves it unchanged. -/
theorem roundDyadic_mul_pow (sig : Nat) (emin maxQ : Int) (infBits : Nat)
    (p k : Nat) (t : Int) (hp : 1 ≤ p) :
    roundDyadic sig emin maxQ infBits (p * 2 ^ k) (t - k) =
      roundDyadic sig emin maxQ infBits p t := by
  rw [roundDyadic, roundDyadic, if_neg (by positivity), if_neg (by omega)]
  rw [roundQuantum_mul_pow sig emin p k t hp]
  rw [roundMantissa_mul_pow p k t _ (by omega)]

/-- Evaluation of the reference conversion on a normalized fraction whose
quantum is not floored at the subnormal minimum. -/
theorem roundDyadic_of_msb (sig shift : Nat) (emin maxQ : Int) (infBits : Nat)
    (hshsig : sig + shift = 63) (hshift1 : 1 ≤ shift)
    (p : Nat) (t : Int) (hp1 : 2 ^ 63 ≤ p) (hp2 : p < 2 ^ 64)
    (ht : emin ≤ t + shift) :
    roundDyadic sig emin maxQ infBits p t =
      if rneShift p shift = 2 ^ (sig + 1) then
        (if maxQ < t + shift + 1 then infBits
         else (t + shift + 1 - emin + 1).toNat <<< sig)
      else if maxQ < t + shift then infBits
      else (rneShift p shift - 2 ^ sig) + ((t + shift - emin + 1).toNat <<< sig) := by
  have hp0 : 1 ≤ p := le_trans Nat.one_le_two_pow hp1
  have hlog : natLog2 p = 63 := natLog2_eq_of p 63 hp1 (by norm_num at hp2 ⊢; omega)
  have hquant : roundQuantum sig emin p t = t + shift := by
    rw [roundQuantum, hlog]
    rw [max_eq_left (by omega)]
    omega
  have hmant : roundMantissa p t (t + shift) = rneShift p shift := by
    rw [roundMantissa, if_neg (by omega)]
    congr 1
    omega
  rw [roundDyadic, if_neg (by omega), hquant, hmant]
  have hble := rneShift_bounds p shift
  have hmlo : 2 ^ sig ≤ rneShift p shift := by
    have hq52 : 2 ^ sig ≤ p / 2 ^ shift := by
      rw [Nat.le_div_iff_mul_le (by positivity)]
      calc (2:Nat) ^ sig * 2 ^ shift = 2 ^ 63 := by rw [← pow_add]; congr 1
        _ ≤ p := hp1
    omega
  rw [roundEncode]
  by_cases hcarry : rneShift p shift = 2 ^ (sig + 1)
  · rw [if_pos hcarry, if_pos hcarry]
  · rw [if_neg hcarry, if_neg hcarry]
    by_cases hov : maxQ < t + shift
    · rw [if_pos hov, if_pos hov]
    · rw [if_neg hov, if_neg hov, if_neg (not_lt.mpr hmlo)]


-- The as_f64 / as_f32 vs reference-rounding comparison (normal range)

theorem as_f64_rne (x : FloatType) (h0 : x.frac ≠ 0) (h64 : x.frac < 2 ^ 64)
    (hval : (2:ℚ) ^ (-1022 : Int) ≤ (x.frac : ℚ) * 2 ^ x.exp) :
    x.asF64bits = roundF64 x.frac x.exp := by
  obtain ⟨k, hk, hkb⟩ := normalize_shape x h64
  have hmsb := normalize_msb x h0
  rw [hk] at hmsb
  dsimp only at hmsb
  have he : (-1085 : Int) ≤ x.exp - k := by
    by_contra hcon
    push_neg at hcon
    have hvq : (x.frac : ℚ) * 2 ^ x.exp =
        ((x.frac * 2 ^ k : Nat) : ℚ) * 2 ^ (x.exp - k) := by
      push_cast
      rw [zpow_sub₀ (by norm_num : (2:ℚ) ≠ 0), zpow_natCast]
      field_simp
      ring
    rw [hvq] at hval
    have hlt : ((x.frac * 2 ^ k : Nat) : ℚ) * 2 ^ (x.exp - k) <
        2 ^ ((64:Int) + (x.exp - k)) := by
      rw [zpow_add₀ (by norm_num : (2:ℚ) ≠ 0)]
      apply mul_lt_mul_of_pos_right ?_ (by positivity)
      calc ((x.frac * 2 ^ k : Nat) : ℚ) < ((2 ^ 64 : Nat) : ℚ) := by exact_mod_cast hkb
        _ = (2:ℚ) ^ (64:Int) := by norm_num
    have hle2 : (2:ℚ) ^ ((64:Int) + (x.exp - k)) ≤ 2 ^ (-1022 : Int) :=
      zpow_le_zpow_right₀ (by norm_num) (by omega)
    have hfin := lt_of_le_of_lt hval hlt
    exact absurd (lt_of_lt_of_le hfin hle2) (lt_irrefl _)
  rw [FloatType.asF64bits, normalizeToF64, hk, shiftToF64]
  rw [show F64_HIDDEN_BIT_MASK = 2 ^ 52 by decide,
    show F64_SIGNIFICAND_SIZE = 52 from rfl]
  rw [asFloatBits_pipeline_of_msb 52 11 F64_DENORMAL_EXPONENT F64_EXPONENT_BIAS
    F64_MAX_EXPONENT U64_INFINITY masksF64 _ _ _ _ _
    (by norm_num) (by norm_num) (by norm_num) (by decide) (by norm_num) (by norm_num)
    (by norm_num) (by decide) (by decide) masksF64_hidden
    _ _ hmsb hkb
    (by rw [show F64_DENORMAL_EXPONENT = -1074 from by decide]; push_cast; omega)]
  rw [roundF64, ← roundDyadic_mul_pow 52 (-1074) 971 U64_INFINITY x.frac k x.exp (by omega)]
  rw [roundDyadic_of_msb 52 11 (-1074) 971 U64_INFINITY (by norm_num) (by norm_num)
    _ _ hmsb hkb (by push_cast; omega)]
  rw [show F64_MAX_EXPONENT = 972 from by decide, show F64_EXPONENT_BIAS = 1075 from by decide]
  simp only [Nat.shiftLeft_eq]
  split_ifs <;> omega

theorem as_f32_rne (x : FloatType) (h0 : x.frac ≠ 0) (h64 : x.frac < 2 ^ 64)
    (hval : (2:ℚ) ^ (-126 : Int) ≤ (x.frac : ℚ) * 2 ^ x.exp) :
    x.asF32bits = roundF32 x.frac x.exp := by
  obtain ⟨k, hk, hkb⟩ := normalize_shape x h64
  have hmsb := normalize_msb x h0
  rw [hk] at hmsb
  dsimp only at hmsb
  have he : (-189 : Int) ≤ x.exp - k := by
    by_contra hcon
    push_neg at hcon
    have hvq : (x.frac : ℚ) * 2 ^ x.exp =
        ((x.frac * 2 ^ k : Nat) : ℚ) * 2 ^ (x.exp - k) := by
      push_cast
      rw [zpow_sub₀ (by norm_num : (2:ℚ) ≠ 0), zpow_natCast]
      field_simp
      ring
    rw [hvq] at hval
    have hlt : ((x.frac * 2 ^ k : Nat) : ℚ) * 2 ^ (x.exp - k) <
        2 ^ ((64:Int) + (x.exp - k)) := by
      rw [zpow_add₀ (by norm_num : (2:ℚ) ≠ 0)]
      apply mul_lt_mul_of_pos_right ?_ (by positivity)
      calc ((x.frac * 2 ^ k : Nat) : ℚ) < ((2 ^ 64 : Nat) : ℚ) := by exact_mod_cast hkb
        _ = (2:ℚ) ^ (64:Int) := by norm_num
    have hle2 : (2:ℚ) ^ ((64:Int) + (x.exp - k)) ≤ 2 ^ (-126 : Int) :=
      zpow_le_zpow_right₀ (by norm_num) (by omega)
    have hfin := lt_of_le_of_lt hval hlt
    exact absurd (lt_of_lt_of_le hfin hle2) (lt_irrefl _)
  rw [FloatType.asF32bits, normalizeToF32, hk, shiftToF32]
  rw [show F32_HIDDEN_BIT_MASK = 2 ^ 23 by decide,
    show F32_SIGNIFICAND_SIZE = 23 from rfl]
  rw [asFloatBits_pipeline_of_msb 23 40 F32_DENORMAL_EXPONENT F32_EXPONENT_BIAS
    F32_MAX_EXPONENT U32_INFINITY masksF32 _ _ _ _ _
    (by norm_num) (by norm_num) (by norm_num) (by decide) (by norm_num) (by norm_num)
    (by norm_num) (by decide) (by decide) masksF32_hidden
    _ _ hmsb hkb
    (by rw [show F32_DENORMAL_EXPONENT = -149 from by decide]; push_cast; omega)]
  rw [roundF32, ← roundDyadic_mul_pow 23 (-149) 104 U32_INFINITY x.frac k x.exp (by omega)]
  rw [roundDyadic_of_msb 23 40 (-149) 104 U32_INFINITY (by norm_num) (by norm_num)
    _ _ hmsb hkb (by push_cast; omega)]
  rw [show F32_MAX_EXPONENT = 105 from by decide, show F32_EXPONENT_BIAS = 150 from by decide]
  simp only [Nat.shiftLeft_eq]
  split_ifs <;> omega


-- CLAIM THEOREMS (C1, C8, C9)

/-- C1 (amended): for every FloatType with a non-zero 64-bit fraction whose
represented value frac * 2^exp is at least the smallest normal number of the
target format, as_f64 (and likewise as_f32 with its own threshold 2^-126)
returns exactly the IEEE-754 round-to-nearest ties-to-even conversion of
that real to the target format, including infinity on overflow past the
maximum exponent.  (In the subnormal range the code rounds at the fixed
width-53 or width-24 bit position and then truncates, which is not round-to-nearest.) -/
theorem as_float_rne_normal_range :
    (∀ x : FloatType, x.frac ≠ 0 → x.frac < 2 ^ 64 →
      (2:ℚ) ^ (-1022 : Int) ≤ (x.frac : ℚ) * 2 ^ x.exp →
      x.asF64bits = roundF64 x.frac x.exp) ∧
    (∀ x : FloatType, x.frac ≠ 0 → x.frac < 2 ^ 64 →
      (2:ℚ) ^ (-126 : Int) ≤ (x.frac : ℚ) * 2 ^ x.exp →
      x.asF32bits = roundF32 x.frac x.exp) :=
  ⟨as_f64_rne, as_f32_rne⟩

/-- Witness for as_float_rne_normal_range at the value 1 * 2^0 = 1.0. -/
theorem as_float_rne_normal_range_witness :
    (FloatType.mk 0 1).asF64bits = roundF64 1 0 ∧
    (FloatType.mk 0 1).asF32bits = roundF32 1 0 :=
  ⟨as_float_rne_normal_range.1 _ (by decide) (by decide) (by norm_num),
   as_float_rne_normal_range.2 _ (by decide) (by decide) (by norm_num)⟩

/-- Counterexample to C1 as stated: in the subnormal range as_f64 is not the
round-to-nearest conversion.  The value 3 * 2^-1076 = 0.75 * 2^-1074 rounds
to the minimum subnormal (bit pattern 1) under round-to-nearest, but
as_f64 flushes it to 0. -/
theorem as_f64_not_rne_subnormal :
    (FloatType.mk (-1076) 3).asF64bits = 0 ∧
    roundF64 (FloatType.mk (-1076) 3).frac (FloatType.mk (-1076) 3).exp = 1 := by
  decide

/-- C8: normalize never changes the represented value frac * 2^exp, is the
identity on inputs whose fraction already has the top bit set, and leaves
the top fraction bit set for every non-zero fraction. -/
theorem normalize_props (x : FloatType) (hx : x.frac < 2 ^ 64) :
    x.normalize.val = x.val ∧
    (2 ^ 63 ≤ x.frac → x.normalize = x) ∧
    (x.frac ≠ 0 → 2 ^ 63 ≤ x.normalize.frac) :=
  ⟨normalize_val x hx, fun h => normalize_of_msb x h, fun h => normalize_msb x h⟩

/-- Witness for normalize_props at {exp 0, frac 3}. -/
theorem normalize_props_witness :
    (FloatType.mk 0 3).normalize.val = (FloatType.mk 0 3).val ∧
    (2 ^ 63 ≤ (FloatType.mk 0 3).frac → (FloatType.mk 0 3).normalize = FloatType.mk 0 3) ∧
    ((FloatType.mk 0 3).frac ≠ 0 → 2 ^ 63 ≤ (FloatType.mk 0 3).normalize.frac) :=
  normalize_props (FloatType.mk 0 3) (by norm_num)

/-- C9: for every positive finite non-zero f64 bit pattern b (normal or
subnormal), from_f64 followed by as_f64 returns exactly b, and likewise
for f32. -/
theorem from_float_as_float_roundtrip :
    (∀ b : Nat, 1 ≤ b → b < U64_INFINITY → (fromF64bits b).asF64bits = b) ∧
    (∀ b : Nat, 1 ≤ b → b < U32_INFINITY → (fromF32bits b).asF32bits = b) :=
  ⟨from_as_f64, from_as_f32⟩

/-- Witness for the round trip at 1.0 (f64 bits) and the f32 minimum
subnormal (bits 1). -/
theorem from_float_as_float_roundtrip_witness :
    (fromF64bits 4607182418800017408).asF64bits = 4607182418800017408 ∧
    (fromF32bits 1).asF32bits = 1 :=
  ⟨from_float_as_float_roundtrip.1 _ (by norm_num) (by norm_num [U64_INFINITY]),
   from_float_as_float_roundtrip.2 _ (by norm_num) (by norm_num [U32_INFINITY])⟩


-- Claim theorems C4, C5, C7, C10

theorem cachedPowerCheckRange_spec :
    ∀ start m : Nat, cachedPowerCheckRange start m = true →
      ∀ n : Nat, start ≤ n → n < start + m → cachedPowerCheck ((n : Int) - 1137) = true := by
  intro start m
  induction m with
  | zero => intro _ n _ hn; omega
  | succ k ih =>
      intro h n hs hn
      rw [cachedPowerCheckRange] at h
      rw [Bool.and_eq_true] at h
      obtain ⟨hk, hrest⟩ := h
      rcases Nat.lt_or_ge n (start + k) with h2 | h2
      · exact ih hrest n hs h2
      · have : n = start + k := by omega
        subst this
        have : ((start : Int) + k) = ((start + k : Nat) : Int) := by push_cast; ring
        rw [this] at hk
        exact hk

set_option maxRecDepth 100000 in
set_option maxHeartbeats 16000000 in
theorem cachedPowerCheckRangeOk0 : cachedPowerCheckRange 0 300 = true := by decide

set_option maxRecDepth 100000 in
set_option maxHeartbeats 16000000 in
theorem cachedPowerCheckRangeOk1 : cachedPowerCheckRange 300 300 = true := by decide

set_option maxRecDepth 100000 in
set_option maxHeartbeats 16000000 in
theorem cachedPowerCheckRangeOk2 : cachedPowerCheckRange 600 300 = true := by decide

set_option maxRecDepth 100000 in
set_option maxHeartbeats 16000000 in
theorem cachedPowerCheckRangeOk3 : cachedPowerCheckRange 900 300 = true := by decide

set_option maxRecDepth 100000 in
set_option maxHeartbeats 16000000 in
theorem cachedPowerCheckRangeOk4 : cachedPowerCheckRange 1200 300 = true := by decide

set_option maxRecDepth 100000 in
set_option maxHeartbeats 16000000 in
theorem cachedPowerCheckRangeOk5 : cachedPowerCheckRange 1500 300 = true := by decide

set_option maxRecDepth 100000 in
set_option maxHeartbeats 16000000 in
theorem cachedPowerCheckRangeOk6 : cachedPowerCheckRange 1800 298 = true := by decide

theorem cachedPowerCheckAll : ∀ n : Nat, n < 2098 → cachedPowerCheck ((n : Int) - 1137) = true := by
  intro n hn
  rcases Nat.lt_or_ge n 300 with h | h
  · exact cachedPowerCheckRange_spec 0 300 cachedPowerCheckRangeOk0 n (by omega) (by omega)
  rcases Nat.lt_or_ge n 600 with h | h
  · exact cachedPowerCheckRange_spec 300 300 cachedPowerCheckRangeOk1 n (by omega) (by omega)
  rcases Nat.lt_or_ge n 900 with h | h
  · exact cachedPowerCheckRange_spec 600 300 cachedPowerCheckRangeOk2 n (by omega) (by omega)
  rcases Nat.lt_or_ge n 1200 with h | h
  · exact cachedPowerCheckRange_spec 900 300 cachedPowerCheckRangeOk3 n (by omega) (by omega)
  rcases Nat.lt_or_ge n 1500 with h | h
  · exact cachedPowerCheckRange_spec 1200 300 cachedPowerCheckRangeOk4 n (by omega) (by omega)
  rcases Nat.lt_or_ge n 1800 with h | h
  · exact cachedPowerCheckRange_spec 1500 300 cachedPowerCheckRangeOk5 n (by omega) (by omega)
  exact cachedPowerCheckRange_spec 1800 298 cachedPowerCheckRangeOk6 n (by omega) (by omega)

/-- C4: for every binary exponent e in [-1137, 960], cached_power terminates
with every table access inside the 87-entry POWERS_OF_TEN array, the
returned entry satisfies -60 <= e + entry.exp + 64 <= -32, and the decimal
exponent written through k is -348 + 8 * idx for the returned index idx. -/
theorem cached_power_in_range (e : Int) (h1 : -1137 ≤ e) (h2 : e ≤ 960) :
    ∃ (idx : Nat) (p : FloatType),
      cachedPower e = some (idx, FIRSTPOWER + (idx : Int) * STEPPOWERS) ∧
      idx < 87 ∧ POWERS_OF_TEN[idx]? = some p ∧
      EXPMIN ≤ e + p.exp + 64 ∧ e + p.exp + 64 ≤ EXPMAX := by
  have hb : (e + 1137).toNat < 2098 := by omega
  have h := cachedPowerCheckAll (e + 1137).toNat hb
  have he : (((e + 1137).toNat : Int)) - 1137 = e := by omega
  rw [he] at h
  rcases hc : cachedPower e with _ | ⟨idx, k⟩
  · simp [cachedPowerCheck, hc] at h
  · rcases hp : POWERS_OF_TEN[idx]? with _ | p
    · simp [cachedPowerCheck, hc, hp] at h
    · simp only [cachedPowerCheck, hc, hp, Bool.and_eq_true, decide_eq_true_eq] at h
      obtain ⟨⟨⟨h87, hk⟩, hlo⟩, hhi⟩ := h
      subst hk
      exact ⟨idx, p, rfl, h87, hp, hlo, hhi⟩

/-- Witness for cached_power_in_range at the concrete exponent e = -63. -/
theorem cached_power_in_range_witness :
    ∃ (idx : Nat) (p : FloatType),
      cachedPower (-63) = some (idx, FIRSTPOWER + (idx : Int) * STEPPOWERS) ∧
      idx < 87 ∧ POWERS_OF_TEN[idx]? = some p ∧
      EXPMIN ≤ -63 + p.exp + 64 ∧ -63 + p.exp + 64 ≤ EXPMAX :=
  cached_power_in_range (-63) (by decide) (by decide)

/-- C10: every one of the 87 entries of POWERS_OF_TEN is normalized — its
fraction has the most-significant (63rd) bit set, i.e. frac >= 2^63. -/
theorem powers_of_ten_normalized : ∀ p ∈ POWERS_OF_TEN, 2 ^ 63 ≤ p.frac := by decide

/-- Witness for powers_of_ten_normalized at the first table entry. -/
theorem powers_of_ten_normalized_witness :
    FloatType.mk (-1220) 18054884314459144840 ∈ POWERS_OF_TEN ∧
      2 ^ 63 ≤ (FloatType.mk (-1220) 18054884314459144840).frac :=
  ⟨by decide, powers_of_ten_normalized _ (by decide)⟩

/-- C7: the f32 conversion boundaries.  {frac = 2^63, exp = -212} converts
to the minimum subnormal 1e-45 (bit pattern 1); {frac = 18446740775174668288,
exp = 64} converts to the f32 value of 3.402823e38 (bit pattern 0x7F7FFFFD);
one exponent step beyond either boundary underflows to 0.0 or overflows to
infinity (bit pattern 0x7F800000) respectively. -/
theorem as_f32_boundaries :
    (FloatType.mk (-212) 9223372036854775808).asF32bits = 1 ∧
    (FloatType.mk 64 18446740775174668288).asF32bits = 0x7F7FFFFD ∧
    (FloatType.mk (-213) 9223372036854775808).asF32bits = 0 ∧
    (FloatType.mk 65 18446740775174668288).asF32bits = U32_INFINITY := by decide

/-- C5 (amended): mul_n returns its input unchanged whenever the exponent is
at least F64_MAX_EXPONENT, and otherwise returns exactly the result of the
unchecked multiply-by-n, for every n in [2, 36]. -/
theorem mul_n_checked_behaviour (x : FloatType) (n : Nat) (h2 : 2 ≤ n) (h36 : n ≤ 36) :
    (F64_MAX_EXPONENT ≤ x.exp → x.mulN n = some x) ∧
    (x.exp < F64_MAX_EXPONENT → x.mulN n = x.mulNUnchecked n) := by
  constructor
  · intro h
    have hn : ¬ (x.exp < F64_MAX_EXPONENT) := not_lt.mpr h
    interval_cases n <;> simp [FloatType.mulN, mulChecked, hn]
  · intro h
    interval_cases n <;> simp [FloatType.mulN, FloatType.mulNUnchecked, mulChecked, h]

/-- Witness for mul_n_checked_behaviour at x = {exp 0, frac 1}, n = 10. -/
theorem mul_n_checked_behaviour_witness :
    (F64_MAX_EXPONENT ≤ (FloatType.mk 0 1).exp → (FloatType.mk 0 1).mulN 10 = some (FloatType.mk 0 1)) ∧
    ((FloatType.mk 0 1).exp < F64_MAX_EXPONENT →
      (FloatType.mk 0 1).mulN 10 = (FloatType.mk 0 1).mulNUnchecked 10) :=
  mul_n_checked_behaviour (FloatType.mk 0 1) 10 (by decide) (by decide)

/-- Counterexample to C5 as stated: at x = {exp = F64_MAX_EXPONENT, frac = 1}
the exponent does not exceed F64_MAX_EXPONENT, yet mul_n 2 does not agree
with the unchecked multiply — the checked wrapper already short-circuits at
exp = F64_MAX_EXPONENT, not only above it. -/
theorem mul_n_checked_claim_false :
    ¬ (F64_MAX_EXPONENT < (FloatType.mk F64_MAX_EXPONENT 1).exp) ∧
    (FloatType.mk F64_MAX_EXPONENT 1).mulN 2 = some (FloatType.mk F64_MAX_EXPONENT 1) ∧
    (FloatType.mk F64_MAX_EXPONENT 1).mulN 2 ≠ (FloatType.mk F64_MAX_EXPONENT 1).mulNUnchecked 2 := by
  decide


-- Groundwork lemmas

theorem digitToChar_zero : digitToChar 0 = 48 := rfl

theorem charToDigit_digitToChar (d : Nat) (hd : d < 36) :
    charToDigit (digitToChar d) = d := by
  unfold charToDigit digitToChar
  split_ifs <;> omega

theorem digitPairTable_length (r : Nat) : (digitPairTable r).length = 2 * r * r := by
  simp [digitPairTable]

theorem digitPairTable_getD_even (r i : Nat) (hi : i < r * r) :
    (digitPairTable r).getD (2 * i) 0 = digitToChar (i / r) := by
  have h2 : 2 * i < (digitPairTable r).length := by
    rw [digitPairTable_length, Nat.mul_assoc]; omega
  rw [List.getD_eq_getElem _ _ h2]
  simp only [digitPairTable, List.getElem_map, List.getElem_range]
  rw [if_pos (by omega)]
  rw [show 2 * i / 2 = i from by omega]

theorem digitPairTable_getD_odd (r i : Nat) (hi : i < r * r) :
    (digitPairTable r).getD (2 * i + 1) 0 = digitToChar (i % r) := by
  have h2 : 2 * i + 1 < (digitPairTable r).length := by
    rw [digitPairTable_length, Nat.mul_assoc]; omega
  rw [List.getD_eq_getElem _ _ h2]
  simp only [digitPairTable, List.getElem_map, List.getElem_range]
  rw [if_neg (by omega)]
  rw [show (2 * i + 1) / 2 = i from by omega]

theorem digits_len_le_of_lt_pow (r k m : Nat) (hr : 2 ≤ r) (h : m < r ^ k) :
    (Nat.digits r m).length ≤ k := by
  rcases Nat.eq_zero_or_pos m with hm | hm
  · subst hm; simp
  · rw [Nat.digits_len r m (by omega) (by omega)]
    have := (Nat.lt_pow_iff_log_lt (by omega : 1 < r) (by omega : m ≠ 0)).mp h
    omega

theorem lowDigits_length (r k m : Nat) : (lowDigits r k m).length = k := by
  simp [lowDigits]

theorem digits_pad_eq_lowDigits (r : Nat) (hr : 2 ≤ r) :
    ∀ k m, m < r ^ k →
      Nat.digits r m ++ List.replicate (k - (Nat.digits r m).length) 0 =
        lowDigits r k m := by
  intro k
  induction k with
  | zero =>
    intro m hm
    rw [pow_zero] at hm
    have h0 : m = 0 := by omega
    subst h0
    simp [lowDigits]
  | succ k ih =>
    intro m hm
    rcases Nat.eq_zero_or_pos m with h0 | h0
    · subst h0
      simp only [Nat.digits_zero, List.nil_append, List.length_nil, Nat.sub_zero]
      unfold lowDigits
      symm
      refine List.eq_replicate_iff.mpr ⟨by simp, ?_⟩
      intro b hb
      simp only [List.mem_map] at hb
      obtain ⟨i, _, hi⟩ := hb
      simp [← hi]
    · rw [Nat.digits_def' (by omega : 1 < r) h0]
      have hdiv : m / r < r ^ k := by
        rw [Nat.div_lt_iff_lt_mul (by omega : 0 < r)]
        calc m < r ^ (k + 1) := hm
        _ = r ^ k * r := by ring
      have := ih (m / r) hdiv
      unfold lowDigits at this ⊢
      rw [List.range_succ_eq_map]
      simp only [List.length_cons, List.map_cons, List.map_map, pow_zero,
        Nat.div_one, List.cons_append]
      congr 1
      rw [show k + 1 - ((Nat.digits r (m / r)).length + 1) =
        k - (Nat.digits r (m / r)).length from by omega]
      rw [this]
      apply List.map_congr_left
      intro i _
      simp only [Function.comp_apply]
      rw [pow_succ, mul_comm, Nat.div_div_eq_div_mul]

theorem digitsBytes_of_ne (r v : Nat) (hv : v ≠ 0) :
    digitsBytes r v = ((Nat.digits r v).map digitToChar).reverse := by
  rw [digitsBytes, if_neg hv]

theorem digitsBytes_chunk (r m v : Nat) (hr : 2 ≤ r) (hv : r ^ m ≤ v) :
    digitsBytes r v = digitsBytes r (v / r ^ m) ++
      ((lowDigits r m (v % r ^ m)).map digitToChar).reverse := by
  have hpow : 0 < r ^ m := pow_pos (by omega) m
  have hv0 : v ≠ 0 := by omega
  have hhi : 0 < v / r ^ m := Nat.div_pos hv hpow
  have hlo : v % r ^ m < r ^ m := Nat.mod_lt _ hpow
  have hlen : (Nat.digits r (v % r ^ m)).length ≤ m :=
    digits_len_le_of_lt_pow r m _ hr hlo
  have key := Nat.digits_append_zeroes_append_digits
    (b := r) (k := m - (Nat.digits r (v % r ^ m)).length)
    (m := v / r ^ m) (n := v % r ^ m) (by omega : 1 < r) hhi
  rw [show (Nat.digits r (v % r ^ m)).length +
      (m - (Nat.digits r (v % r ^ m)).length) = m from by omega] at key
  rw [Nat.mod_add_div (v) (r ^ m)] at key
  rw [digitsBytes_of_ne r v hv0, digitsBytes_of_ne r _ (by omega), ← key]
  rw [← digits_pad_eq_lowDigits r hr m _ hlo]
  simp [List.reverse_append]

theorem digitsBytes_chunk_length (r m v : Nat) (hr : 2 ≤ r) (hv : r ^ m ≤ v) :
    (digitsBytes r v).length = (digitsBytes r (v / r ^ m)).length + m := by
  rw [digitsBytes_chunk r m v hr hv]
  simp [lowDigits_length]

-- Buffer slice lemmas

theorem bufSlice_zero (b : Buf) (s : Nat) : bufSlice b s 0 = [] := rfl

theorem bufSlice_length (b : Buf) (s n : Nat) : (bufSlice b s n).length = n := by
  simp [bufSlice]

theorem bufSlice_congr (b1 b2 : Buf) (s n : Nat)
    (h : ∀ p, s ≤ p → p < s + n → b1 p = b2 p) :
    bufSlice b1 s n = bufSlice b2 s n := by
  unfold bufSlice
  apply List.map_congr_left
  intro i hi
  rw [List.mem_range] at hi
  exact h (s + i) (by omega) (by omega)

theorem bufSlice_split (b : Buf) (s n1 n2 : Nat) :
    bufSlice b s (n1 + n2) = bufSlice b s n1 ++ bufSlice b (s + n1) n2 := by
  unfold bufSlice
  rw [List.range_add, List.map_append, List.map_map]
  congr 1
  apply List.map_congr_left
  intro i _
  simp only [Function.comp_apply]
  congr 1
  omega

theorem bufSlice_eq_replicate (b : Buf) (s n c : Nat)
    (h : ∀ p, s ≤ p → p < s + n → b p = c) :
    bufSlice b s n = List.replicate n c := by
  unfold bufSlice
  refine List.eq_replicate_iff.mpr ⟨by simp, ?_⟩
  intro x hx
  simp only [List.mem_map, List.mem_range] at hx
  obtain ⟨i, hi, hx⟩ := hx
  rw [← hx]
  exact h (s + i) (by omega) (by omega)

theorem bufSlice_one (b : Buf) (s : Nat) : bufSlice b s 1 = [b s] := by
  simp [bufSlice, List.range_succ]

theorem bufSlice_two (b : Buf) (s : Nat) : bufSlice b s 2 = [b s, b (s + 1)] := by
  simp [bufSlice, List.range_succ]

theorem bufSlice_four (b : Buf) (s : Nat) :
    bufSlice b s 4 = [b s, b (s + 1), b (s + 2), b (s + 3)] := by
  simp [bufSlice, List.range_succ]

theorem bufSet_same (b : Buf) (i v : Nat) : bufSet b i v i = v := by
  simp [bufSet]

theorem bufSet_other (b : Buf) (i v p : Nat) (h : p ≠ i) : bufSet b i v p = b p := by
  simp [bufSet, h]

theorem fillZeros_spec (n : Nat) : ∀ (b : Buf) (s : Nat),
    (∀ p, s ≤ p → p < s + n → fillZeros b s n p = 48) ∧
    (∀ p, p < s ∨ s + n ≤ p → fillZeros b s n p = b p) := by
  induction n with
  | zero => intro b s; exact ⟨fun p h1 h2 => by omega, fun p _ => rfl⟩
  | succ n ih =>
    intro b s
    rw [fillZeros]
    obtain ⟨h1, h2⟩ := ih (bufSet b s 48) (s + 1)
    constructor
    · intro p hp1 hp2
      rcases Nat.eq_or_lt_of_le hp1 with h | h
      · rw [h2 p (by omega), ← h, bufSet_same]
      · exact h1 p (by omega) (by omega)
    · intro p hp
      rw [h2 p (by omega), bufSet_other _ _ _ _ (by omega)]

theorem digitsBytes_length (r v : Nat) (hv : v ≠ 0) :
    (digitsBytes r v).length = (Nat.digits r v).length := by
  rw [digitsBytes_of_ne r v hv]; simp

theorem digitsBytes_length_pos (r v : Nat) (_hr : 2 ≤ r) :
    1 ≤ (digitsBytes r v).length := by
  unfold digitsBytes
  split
  · simp
  · simp only [List.length_reverse, List.length_map]
    have : Nat.digits r v ≠ [] := Nat.digits_ne_nil_iff_ne_zero.mpr (by assumption)
    exact List.length_pos.mpr this

theorem lowDigits_four (r q : Nat) :
    lowDigits r 4 q = [q % r, q / r % r, q / r ^ 2 % r, q / r ^ 3 % r] := by
  simp [lowDigits, List.range_succ, pow_one]

theorem lowDigits_two (r q : Nat) :
    lowDigits r 2 q = [q % r, q / r % r] := by
  simp [lowDigits, List.range_succ, pow_one]

theorem writeDigitsLoop4_spec (r : Nat) (hr : 2 ≤ r) :
    ∀ v : Nat, ∀ buf : Buf, ∀ L : Nat, (Nat.digits r v).length ≤ L →
      ∃ j : Nat,
        (writeDigitsLoop4 r (digitPairTable r) v buf L).1 = v / r ^ (4 * j) ∧
        (writeDigitsLoop4 r (digitPairTable r) v buf L).2.2 = L - 4 * j ∧
        4 * j ≤ L ∧ v / r ^ (4 * j) < r ^ 4 ∧
        (Nat.digits r (v / r ^ (4 * j))).length ≤ L - 4 * j ∧
        digitsBytes r v = digitsBytes r (v / r ^ (4 * j)) ++
          bufSlice (writeDigitsLoop4 r (digitPairTable r) v buf L).2.1
            (L - 4 * j) (4 * j) ∧
        (∀ p, p < L - 4 * j ∨ L ≤ p →
          (writeDigitsLoop4 r (digitPairTable r) v buf L).2.1 p = buf p) := by
  intro v
  induction v using Nat.strong_induction_on with
  | _ v IH =>
  intro buf L hL
  by_cases hc : 2 ≤ r ∧ r ^ 4 ≤ v
  · rw [writeDigitsLoop4, dif_pos hc]
    have hpow : (0:Nat) < r ^ 4 := pow_pos (by omega) 4
    have hhi0 : 0 < v / r ^ 4 := Nat.div_pos hc.2 hpow
    have hchunk := digitsBytes_chunk r 4 v hr hc.2
    have hchlen := digitsBytes_chunk_length r 4 v hr hc.2
    have hlv : (digitsBytes r v).length = (Nat.digits r v).length :=
      digitsBytes_length r v (by omega)
    have hlhi : (digitsBytes r (v / r ^ 4)).length =
        (Nat.digits r (v / r ^ 4)).length := digitsBytes_length r _ (by omega)
    have hlhi1 : 1 ≤ (digitsBytes r (v / r ^ 4)).length :=
      digitsBytes_length_pos r _ hr
    have hL5 : 5 ≤ L := by omega
    have hlen4 : (Nat.digits r (v / r ^ 4)).length ≤ L - 4 := by omega
    obtain ⟨j, e1, e2, e3, e4, e5, e6, e7⟩ :=
      IH (v / r ^ 4)
        (Nat.div_lt_self (by omega) (lt_of_lt_of_le (by norm_num)
          (Nat.pow_le_pow_left hr 4)))
        (bufSet (bufSet (bufSet (bufSet buf
          (L - 1) ((digitPairTable r).getD (2 * (v % r ^ 4 % r ^ 2) + 1) 0))
          (L - 2) ((digitPairTable r).getD (2 * (v % r ^ 4 % r ^ 2)) 0))
          (L - 3) ((digitPairTable r).getD (2 * (v % r ^ 4 / r ^ 2) + 1) 0))
          (L - 4) ((digitPairTable r).getD (2 * (v % r ^ 4 / r ^ 2)) 0))
        (L - 4) hlen4
    have hq4 : v / r ^ (4 * (j + 1)) = v / r ^ 4 / r ^ (4 * j) := by
      rw [Nat.div_div_eq_div_mul, ← pow_add]
      congr 1
      ring
    refine ⟨j + 1, ?_, ?_, by omega, ?_, ?_, ?_, ?_⟩
    · rw [e1, hq4]
    · rw [e2]; omega
    · rw [hq4]; exact e4
    · rw [hq4]
      have : L - 4 * (j + 1) = L - 4 - 4 * j := by omega
      rw [this]; exact e5
    · rw [hchunk, hq4, e6, List.append_assoc]
      congr 1
      have hsplit : 4 * (j + 1) = 4 * j + 4 := by ring
      rw [hsplit, show L - (4 * j + 4) = L - 4 - 4 * j from by omega,
        bufSlice_split, show L - 4 - 4 * j + 4 * j = L - 4 from by omega]
      congr 1
      rw [bufSlice_congr _ (bufSet (bufSet (bufSet (bufSet buf
          (L - 1) ((digitPairTable r).getD (2 * (v % r ^ 4 % r ^ 2) + 1) 0))
          (L - 2) ((digitPairTable r).getD (2 * (v % r ^ 4 % r ^ 2)) 0))
          (L - 3) ((digitPairTable r).getD (2 * (v % r ^ 4 / r ^ 2) + 1) 0))
          (L - 4) ((digitPairTable r).getD (2 * (v % r ^ 4 / r ^ 2)) 0))
        (L - 4) 4 (fun p hp1 _ => e7 p (Or.inr (by omega)))]
      rw [bufSlice_four]
      rw [show L - 4 + 1 = L - 3 from by omega, show L - 4 + 2 = L - 2 from by omega,
        show L - 4 + 3 = L - 1 from by omega]
      rw [bufSet_same]
      rw [bufSet_other _ _ _ _ (by omega : L - 3 ≠ L - 4), bufSet_same]
      rw [bufSet_other _ _ _ _ (by omega : L - 2 ≠ L - 4),
        bufSet_other _ _ _ _ (by omega : L - 2 ≠ L - 3), bufSet_same]
      rw [bufSet_other _ _ _ _ (by omega : L - 1 ≠ L - 4),
        bufSet_other _ _ _ _ (by omega : L - 1 ≠ L - 3),
        bufSet_other _ _ _ _ (by omega : L - 1 ≠ L - 2), bufSet_same]
      have hrr : r ^ 2 = r * r := by ring
      have hi1 : v % r ^ 4 / r ^ 2 < r * r := by
        rw [Nat.div_lt_iff_lt_mul (pow_pos (by omega) 2), ← hrr, ← pow_add]
        exact Nat.mod_lt _ hpow
      have hi2 : v % r ^ 4 % r ^ 2 < r * r := by
        rw [← hrr]
        exact Nat.mod_lt _ (pow_pos (by omega) 2)
      rw [digitPairTable_getD_even r _ hi1, digitPairTable_getD_odd r _ hi1,
        digitPairTable_getD_even r _ hi2, digitPairTable_getD_odd r _ hi2]
      rw [lowDigits_four]
      simp only [List.map_cons, List.map_nil, List.reverse_cons, List.nil_append,
        List.cons_append, List.append_nil]
      have d3 : v % r ^ 4 / r ^ 3 % r = v % r ^ 4 / r ^ 2 / r := by
        rw [Nat.div_div_eq_div_mul, ← pow_succ]
        exact Nat.mod_eq_of_lt (by
          rw [Nat.div_lt_iff_lt_mul (pow_pos (by omega) 3), ← pow_succ']
          exact Nat.mod_lt _ hpow)
      have d1 : v % r ^ 4 / r % r = v % r ^ 4 % r ^ 2 / r := by
        rw [hrr, Nat.mod_mul_right_div_self]
      have d0 : v % r ^ 4 % r = v % r ^ 4 % r ^ 2 % r :=
        (Nat.mod_mod_of_dvd _ (dvd_pow_self r (by norm_num))).symm
      rw [d3, d1, d0]
      simp
    · intro p hp
      rw [e7 p (by omega)]
      rcases hp with hp | hp
      · rw [bufSet_other _ _ _ _ (by omega : p ≠ L - 4),
          bufSet_other _ _ _ _ (by omega : p ≠ L - 3),
          bufSet_other _ _ _ _ (by omega : p ≠ L - 2),
          bufSet_other _ _ _ _ (by omega : p ≠ L - 1)]
      · rw [bufSet_other _ _ _ _ (by omega : p ≠ L - 4),
          bufSet_other _ _ _ _ (by omega : p ≠ L - 3),
          bufSet_other _ _ _ _ (by omega : p ≠ L - 2),
          bufSet_other _ _ _ _ (by omega : p ≠ L - 1)]
  · rw [writeDigitsLoop4, dif_neg hc]
    have hv4 : v < r ^ 4 := by
      rcases Nat.lt_or_ge v (r ^ 4) with h | h
      · exact h
      · exact absurd ⟨hr, h⟩ hc
    refine ⟨0, by simp, by simp, by omega, by simpa using hv4, by simpa using hL,
      by simp [bufSlice_zero], fun p _ => rfl⟩

theorem writeDigitsLoop2_spec (r : Nat) (hr : 2 ≤ r) :
    ∀ v : Nat, ∀ buf : Buf, ∀ L : Nat, (Nat.digits r v).length ≤ L →
      ∃ j : Nat,
        (writeDigitsLoop2 r (digitPairTable r) v buf L).1 = v / r ^ (2 * j) ∧
        (writeDigitsLoop2 r (digitPairTable r) v buf L).2.2 = L - 2 * j ∧
        2 * j ≤ L ∧ v / r ^ (2 * j) < r ^ 2 ∧
        (Nat.digits r (v / r ^ (2 * j))).length ≤ L - 2 * j ∧
        digitsBytes r v = digitsBytes r (v / r ^ (2 * j)) ++
          bufSlice (writeDigitsLoop2 r (digitPairTable r) v buf L).2.1
            (L - 2 * j) (2 * j) ∧
        (∀ p, p < L - 2 * j ∨ L ≤ p →
          (writeDigitsLoop2 r (digitPairTable r) v buf L).2.1 p = buf p) := by
  intro v
  induction v using Nat.strong_induction_on with
  | _ v IH =>
  intro buf L hL
  by_cases hc : 2 ≤ r ∧ r ^ 2 ≤ v
  · rw [writeDigitsLoop2, dif_pos hc]
    have hpow : (0:Nat) < r ^ 2 := pow_pos (by omega) 2
    have hhi0 : 0 < v / r ^ 2 := Nat.div_pos hc.2 hpow
    have hchunk := digitsBytes_chunk r 2 v hr hc.2
    have hchlen := digitsBytes_chunk_length r 2 v hr hc.2
    have hlv : (digitsBytes r v).length = (Nat.digits r v).length :=
      digitsBytes_length r v (by omega)
    have hlhi : (digitsBytes r (v / r ^ 2)).length =
        (Nat.digits r (v / r ^ 2)).length := digitsBytes_length r _ (by omega)
    have hlhi1 : 1 ≤ (digitsBytes r (v / r ^ 2)).length :=
      digitsBytes_length_pos r _ hr
    have hL3 : 3 ≤ L := by omega
    have hlen2 : (Nat.digits r (v / r ^ 2)).length ≤ L - 2 := by omega
    obtain ⟨j, e1, e2, e3, e4, e5, e6, e7⟩ :=
      IH (v / r ^ 2)
        (Nat.div_lt_self (by omega) (lt_of_lt_of_le (by norm_num)
          (Nat.pow_le_pow_left hr 2)))
        (bufSet (bufSet buf
          (L - 1) ((digitPairTable r).getD (2 * (v % r ^ 2) + 1) 0))
          (L - 2) ((digitPairTable r).getD (2 * (v % r ^ 2)) 0))
        (L - 2) hlen2
    have hq2 : v / r ^ (2 * (j + 1)) = v / r ^ 2 / r ^ (2 * j) := by
      rw [Nat.div_div_eq_div_mul, ← pow_add]
      congr 1
      ring
    refine ⟨j + 1, ?_, ?_, by omega, ?_, ?_, ?_, ?_⟩
    · rw [e1, hq2]
    · rw [e2]; omega
    · rw [hq2]; exact e4
    · rw [hq2]
      have : L - 2 * (j + 1) = L - 2 - 2 * j := by omega
      rw [this]; exact e5
    · rw [hchunk, hq2, e6, List.append_assoc]
      congr 1
      rw [show 2 * (j + 1) = 2 * j + 2 from by ring,
        show L - (2 * j + 2) = L - 2 - 2 * j from by omega,
        bufSlice_split, show L - 2 - 2 * j + 2 * j = L - 2 from by omega]
      congr 1
      rw [bufSlice_congr _ (bufSet (bufSet buf
          (L - 1) ((digitPairTable r).getD (2 * (v % r ^ 2) + 1) 0))
          (L - 2) ((digitPairTable r).getD (2 * (v % r ^ 2)) 0))
        (L - 2) 2 (fun p hp1 _ => e7 p (Or.inr (by omega)))]
      rw [bufSlice_two, show L - 2 + 1 = L - 1 from by omega]
      rw [bufSet_same]
      rw [bufSet_other _ _ _ _ (by omega : L - 1 ≠ L - 2), bufSet_same]
      have hrr : r ^ 2 = r * r := by ring
      have hi2 : v % r ^ 2 < r * r := by
        rw [← hrr]
        exact Nat.mod_lt _ hpow
      rw [digitPairTable_getD_even r _ hi2, digitPairTable_getD_odd r _ hi2]
      rw [lowDigits_two]
      have d1 : v % r ^ 2 / r % r = v % r ^ 2 / r := by
        exact Nat.mod_eq_of_lt (by
          rw [Nat.div_lt_iff_lt_mul (by omega : 0 < r), ← hrr]
          exact Nat.mod_lt _ hpow)
      rw [d1]
      simp
    · intro p hp
      rw [e7 p (by omega)]
      rcases hp with hp | hp
      · rw [bufSet_other _ _ _ _ (by omega : p ≠ L - 2),
          bufSet_other _ _ _ _ (by omega : p ≠ L - 1)]
      · rw [bufSet_other _ _ _ _ (by omega : p ≠ L - 2),
          bufSet_other _ _ _ _ (by omega : p ≠ L - 1)]
  · rw [writeDigitsLoop2, dif_neg hc]
    have hv2 : v < r ^ 2 := by
      rcases Nat.lt_or_ge v (r ^ 2) with h | h
      · exact h
      · exact absurd ⟨hr, h⟩ hc
    refine ⟨0, by simp, by simp, by omega, by simpa using hv2, by simpa using hL,
      by simp [bufSlice_zero], fun p _ => rfl⟩

theorem digitsBytes_lt (r w : Nat) (hr : 2 ≤ r) (hw : w < r) :
    digitsBytes r w = [digitToChar w] := by
  by_cases h0 : w = 0
  · subst h0
    simp [digitsBytes, digitToChar]
  · rw [digitsBytes_of_ne r w h0, Nat.digits_def' (by omega : 1 < r) (by omega),
      Nat.div_eq_of_lt hw]
    simp [Nat.mod_eq_of_lt hw]

theorem digitsBytes_two_digits (r w : Nat) (hr : 2 ≤ r) (h1 : r ≤ w)
    (h2 : w < r ^ 2) : digitsBytes r w = [digitToChar (w / r), digitToChar (w % r)] := by
  have hqr : w / r < r := by
    rw [Nat.div_lt_iff_lt_mul (by omega : 0 < r)]
    calc w < r ^ 2 := h2
    _ = r * r := by ring
  have hq1 : 1 ≤ w / r := (Nat.one_le_div_iff (by omega)).mpr h1
  rw [digitsBytes_of_ne r w (by omega),
    Nat.digits_def' (by omega : 1 < r) (by omega : 0 < w),
    Nat.digits_def' (by omega : 1 < r) (by omega : 0 < w / r),
    Nat.div_eq_of_lt hqr]
  simp [Nat.mod_eq_of_lt hqr]

theorem writeDigits_spec (r v : Nat) (hr : 2 ≤ r) (buf : Buf) (L : Nat)
    (hL : (digitsBytes r v).length ≤ L) :
    (writeDigits v r (digitPairTable r) buf L).2 = L - (digitsBytes r v).length ∧
    bufSlice (writeDigits v r (digitPairTable r) buf L).1
      (L - (digitsBytes r v).length) (digitsBytes r v).length = digitsBytes r v ∧
    (∀ p, p < L - (digitsBytes r v).length ∨ L ≤ p →
      (writeDigits v r (digitPairTable r) buf L).1 p = buf p) := by
  have hL' : (Nat.digits r v).length ≤ L := by
    by_cases h0 : v = 0
    · subst h0; simp
    · rw [← digitsBytes_length r v h0]; exact hL
  obtain ⟨j4, a1, a2, a3, a4, a5, a6, a7⟩ := writeDigitsLoop4_spec r hr v buf L hL'
  rcases hE4 : writeDigitsLoop4 r (digitPairTable r) v buf L with ⟨v4, b4, i4⟩
  rw [hE4] at a1 a2 a6 a7
  simp only at a1 a2 a6 a7
  obtain ⟨j2, b1, b2e, b3, b4lt, b5, b6, b7⟩ :=
    writeDigitsLoop2_spec r hr v4 b4 i4 (by rw [a1, a2]; exact a5)
  rcases hE2 : writeDigitsLoop2 r (digitPairTable r) v4 b4 i4 with ⟨v2, b2, i2⟩
  rw [hE2] at b1 b2e b6 b7
  simp only at b1 b2e b6 b7
  rw [writeDigits, hE4]
  simp only
  rw [hE2]
  simp only
  have hdv : digitsBytes r v = digitsBytes r v2 ++
      (bufSlice b2 (i4 - 2 * j2) (2 * j2) ++ bufSlice b4 (L - 4 * j4) (4 * j4)) := by
    rw [a6, ← a2, b1, ← a1, b6, List.append_assoc]
  have hlens : (digitsBytes r v).length =
      (digitsBytes r v2).length + 2 * j2 + 4 * j4 := by
    rw [hdv]
    simp [bufSlice_length]
    omega
  have hi2 : i2 = i4 - 2 * j2 := b2e
  have hi4 : i4 = L - 4 * j4 := a2
  have hb3 : 2 * j2 ≤ i4 := b3
  have hslice2 : bufSlice b2 i2 (2 * j2) = bufSlice b2 (i4 - 2 * j2) (2 * j2) := by
    rw [hi2]
  rw [← b1] at b4lt
  by_cases hv2 : v2 < r
  · rw [if_pos hv2]
    simp only
    have hdb2 : digitsBytes r v2 = [digitToChar v2] := digitsBytes_lt r v2 hr hv2
    have hlen1 : (digitsBytes r v).length = 1 + 2 * j2 + 4 * j4 := by
      rw [hlens, hdb2]; rfl
    have hidx : i2 - 1 = L - (digitsBytes r v).length := by omega
    refine ⟨hidx, ?_, ?_⟩
    · rw [hlen1, hdv, hdb2]
      rw [show L - (1 + 2 * j2 + 4 * j4) = i2 - 1 from by omega]
      rw [show (1 : Nat) + 2 * j2 + 4 * j4 = 1 + (2 * j2 + 4 * j4) from by omega]
      rw [bufSlice_split, bufSlice_split, bufSlice_one]
      rw [show i2 - 1 + 1 = i2 from by omega, show i2 + 2 * j2 = i4 from by omega]
      rw [bufSet_same]
      congr 1
      congr 1
      · rw [bufSlice_congr _ b2 i2 (2 * j2)
          (fun p hp _ => bufSet_other _ _ _ _ (by omega)), hslice2]
      · rw [bufSlice_congr _ b4 i4 (4 * j4) ?_, hi4]
        intro p hp _
        rw [bufSet_other _ _ _ _ (by omega)]
        exact b7 p (Or.inr (by omega))
    · intro p hp
      rw [hlen1] at hp
      rw [bufSet_other _ _ _ _ (by omega)]
      rw [b7 p (by omega)]
      exact a7 p (by omega)
  · rw [if_neg hv2]
    simp only
    push_neg at hv2
    have hdb2 : digitsBytes r v2 = [digitToChar (v2 / r), digitToChar (v2 % r)] :=
      digitsBytes_two_digits r v2 hr hv2 b4lt
    have hlen2 : (digitsBytes r v).length = 2 + 2 * j2 + 4 * j4 := by
      rw [hlens, hdb2]; rfl
    have hlen2i : 2 ≤ i2 := by
      have hne : (digitsBytes r v2).length = (Nat.digits r v2).length :=
        digitsBytes_length r v2 (by omega)
      have hb5 : (Nat.digits r v2).length ≤ i2 := by
        rw [hi2, b1]; exact b5
      rw [hdb2] at hne
      simp at hne
      omega
    have hidx : i2 - 2 = L - (digitsBytes r v).length := by omega
    refine ⟨hidx, ?_, ?_⟩
    · rw [hlen2, hdv, hdb2]
      rw [show L - (2 + 2 * j2 + 4 * j4) = i2 - 2 from by omega]
      rw [show (2 : Nat) + 2 * j2 + 4 * j4 = 2 + (2 * j2 + 4 * j4) from by omega]
      rw [bufSlice_split, bufSlice_split, bufSlice_two]
      rw [show i2 - 2 + 1 = i2 - 1 from by omega,
        show i2 - 2 + 2 = i2 from by omega,
        show i2 + 2 * j2 = i4 from by omega]
      have hrr : v2 < r * r := by
        have h22 : r ^ 2 = r * r := by ring
        omega
      rw [bufSet_same]
      rw [bufSet_other _ _ _ _ (by omega : i2 - 1 ≠ i2 - 2), bufSet_same]
      rw [digitPairTable_getD_even r v2 hrr, digitPairTable_getD_odd r v2 hrr]
      congr 1
      congr 1
      · rw [bufSlice_congr _ b2 i2 (2 * j2) ?_, hslice2]
        intro p hp _
        rw [bufSet_other _ _ _ _ (by omega), bufSet_other _ _ _ _ (by omega)]
      · rw [bufSlice_congr _ b4 i4 (4 * j4) ?_, hi4]
        intro p hp _
        rw [bufSet_other _ _ _ _ (by omega), bufSet_other _ _ _ _ (by omega)]
        exact b7 p (Or.inr (by omega))
    · intro p hp
      rw [hlen2] at hp
      rw [bufSet_other _ _ _ _ (by omega), bufSet_other _ _ _ _ (by omega)]
      rw [b7 p (by omega)]
      exact a7 p (by omega)

theorem pad_digitsBytes (r step q : Nat) (hr : 2 ≤ r) (hstep : 1 ≤ step)
    (hq : q < r ^ step) :
    List.replicate (step - (digitsBytes r q).length) 48 ++ digitsBytes r q =
      ((lowDigits r step q).map digitToChar).reverse := by
  rw [← digits_pad_eq_lowDigits r hr step q hq]
  rw [List.map_append, List.reverse_append, List.map_replicate, digitToChar_zero,
    List.reverse_replicate]
  by_cases h0 : q = 0
  · subst h0
    rw [show digitsBytes r 0 = [48] from rfl]
    simp only [Nat.digits_zero, List.length_nil, Nat.sub_zero, List.map_nil,
      List.reverse_nil, List.append_nil, List.length_cons]
    have h1 : step - 1 + 1 = step := by omega
    conv_rhs => rw [← h1]
    rw [List.replicate_succ']
  · rw [digitsBytes_of_ne r q h0]
    simp

theorem writeStepDigits_spec (r q : Nat) (hr : 2 ≤ r) (buf : Buf) (L step : Nat)
    (hstep1 : 1 ≤ step) (hstepL : step ≤ L) (hq : q < r ^ step) :
    (writeStepDigits q r (digitPairTable r) buf L step).2 = L - step ∧
    bufSlice (writeStepDigits q r (digitPairTable r) buf L step).1 (L - step) step =
      ((lowDigits r step q).map digitToChar).reverse ∧
    (∀ p, p < L - step ∨ L ≤ p →
      (writeStepDigits q r (digitPairTable r) buf L step).1 p = buf p) := by
  have hdl : (digitsBytes r q).length ≤ step := by
    by_cases h0 : q = 0
    · subst h0; simpa [digitsBytes] using hstep1
    · rw [digitsBytes_length r q h0]
      exact digits_len_le_of_lt_pow r step q hr hq
  have hdl1 : 1 ≤ (digitsBytes r q).length := digitsBytes_length_pos r q hr
  obtain ⟨w1, w2, w3⟩ := writeDigits_spec r q hr buf L (by omega)
  rcases hEW : writeDigits q r (digitPairTable r) buf L with ⟨bw, iw⟩
  rw [hEW] at w1 w2 w3
  simp only at w1 w2 w3
  rw [writeStepDigits, hEW]
  simp only
  obtain ⟨f1, f2⟩ := fillZeros_spec (iw - (L - step)) bw (L - step)
  have hcount : iw - (L - step) = step - (digitsBytes r q).length := by omega
  refine ⟨by simp, ?_, ?_⟩
  · have hsplit : bufSlice (fillZeros bw (L - step) (iw - (L - step))) (L - step) step =
        bufSlice (fillZeros bw (L - step) (iw - (L - step))) (L - step)
          (step - (digitsBytes r q).length) ++
        bufSlice (fillZeros bw (L - step) (iw - (L - step)))
          ((L - step) + (step - (digitsBytes r q).length)) (digitsBytes r q).length := by
      rw [← bufSlice_split]
      congr 1
      omega
    rw [hsplit, ← pad_digitsBytes r step q hr hstep1 hq]
    congr 1
    · exact bufSlice_eq_replicate _ _ _ _ (fun p hp1 hp2 => f1 p hp1 (by omega))
    · rw [bufSlice_congr _ bw _ _ (fun p hp1 _ => f2 p (by omega))]
      rw [show (L - step) + (step - (digitsBytes r q).length) =
        L - (digitsBytes r q).length from by omega]
      exact w2
  · intro p hp
    rw [f2 p (by omega)]
    exact w3 p (by omega)

theorem parseDigits_digitsBytes (r v : Nat) (hr : 2 ≤ r) (hr36 : r ≤ 36) :
    parseDigits r (digitsBytes r v) = v := by
  by_cases h0 : v = 0
  · subst h0
    rw [show digitsBytes r 0 = [48] from rfl]
    simp [parseDigits, charToDigit, Nat.ofDigits]
  · rw [digitsBytes_of_ne r v h0]
    unfold parseDigits
    rw [List.map_reverse, List.reverse_reverse, List.map_map]
    have h1 : List.map (charToDigit ∘ digitToChar) (Nat.digits r v) =
        List.map id (Nat.digits r v) :=
      List.map_congr_left (fun d hd => charToDigit_digitToChar d
        (lt_of_lt_of_le (Nat.digits_lt_base (by omega) hd) hr36))
    rw [h1, List.map_id]
    exact Nat.ofDigits_digits r v

/-- C3: for every unsigned integer v of at most 128 bits and every radix r in
[2,36], given the digit-pair table of size 2*r^2 and a buffer of at least the
maximum digit count for 128-bit values, the integer formatting algorithm
returns an index such that the buffer bytes from that index are exactly the
canonical radix-r digit string of v (most significant first, internal zeros
preserved), a correct radix-r parser applied to that digit string recovers v,
and on the 128-bit path the lower chunk is zero-padded to its fixed step
width. -/
theorem integer_digits_roundtrip (v r L : Nat) (buf : Buf)
    (hv : v < 2 ^ 128) (hr : 2 ≤ r) (hr36 : r ≤ 36)
    (hL : (Nat.digits r (2 ^ 128 - 1)).length ≤ L) :
    (algorithmU128 v r (digitPairTable r) buf L).2 = L - (digitsBytes r v).length ∧
    bufSlice (algorithmU128 v r (digitPairTable r) buf L).1
      (L - (digitsBytes r v).length) (digitsBytes r v).length = digitsBytes r v ∧
    parseDigits r (digitsBytes r v) = v ∧
    (2 ^ 64 - 1 < v →
      bufSlice (algorithmU128 v r (digitPairTable r) buf L).1
        (L - (u128Divisor r).2) (u128Divisor r).2 =
        List.replicate ((u128Divisor r).2 -
          (digitsBytes r (v % (u128Divisor r).1)).length) 48 ++
          digitsBytes r (v % (u128Divisor r).1)) := by
  have hparse := parseDigits_digitsBytes r v hr hr36
  have hLv : (digitsBytes r v).length ≤ L := by
    by_cases h0 : v = 0
    · subst h0
      have h128 : (2:Nat) ^ 128 - 1 ≠ 0 := by norm_num
      have hpos : 0 < (Nat.digits r ((2:Nat) ^ 128 - 1)).length :=
        List.length_pos.mpr (Nat.digits_ne_nil_iff_ne_zero.mpr h128)
      simp only [show digitsBytes r 0 = [48] from rfl, List.length_cons,
        List.length_nil]
      omega
    · rw [digitsBytes_length r v h0]
      have hvlt : v < r ^ (Nat.digits r (2 ^ 128 - 1)).length :=
        lt_of_le_of_lt (by omega) (Nat.lt_base_pow_length_digits (by omega))
      exact le_trans (digits_len_le_of_lt_pow r _ v hr hvlt) hL
  rw [algorithmU128]
  simp only [u128Divisor, u128Divrem]
  by_cases hsmall : v ≤ 2 ^ 64 - 1
  · rw [if_pos hsmall, algorithm,
      show v % 2 ^ 64 = v from Nat.mod_eq_of_lt (by omega)]
    obtain ⟨w1, w2, w3⟩ := writeDigits_spec r v hr buf L hLv
    exact ⟨w1, w2, hparse, fun hbig => absurd hbig (by omega)⟩
  · rw [if_neg hsmall]
    push_neg at hsmall
    have hU0 : (2:Nat) ^ 64 - 1 ≠ 0 := by norm_num
    have hstep1 : 1 ≤ Nat.log r (2 ^ 64 - 1) :=
      Nat.log_pos (by omega) (by norm_num; omega)
    have hDU : r ^ Nat.log r (2 ^ 64 - 1) ≤ 2 ^ 64 - 1 :=
      Nat.pow_log_le_self r hU0
    have hUD : 2 ^ 64 - 1 < r ^ Nat.log r (2 ^ 64 - 1) * r := by
      have := Nat.lt_pow_succ_log_self (by omega : 1 < r) (2 ^ 64 - 1)
      rwa [pow_succ] at this
    have hDpos : 0 < r ^ Nat.log r (2 ^ 64 - 1) := pow_pos (by omega) _
    have hDv : r ^ Nat.log r (2 ^ 64 - 1) ≤ v := by omega
    have hchunk1 := digitsBytes_chunk r (Nat.log r (2 ^ 64 - 1)) v hr hDv
    have hclen1 := digitsBytes_chunk_length r (Nat.log r (2 ^ 64 - 1)) v hr hDv
    have hhi1 : 1 ≤ (digitsBytes r (v / r ^ Nat.log r (2 ^ 64 - 1))).length :=
      digitsBytes_length_pos r _ hr
    have hstepL : Nat.log r (2 ^ 64 - 1) ≤ L := by omega
    obtain ⟨s1, s2, s3⟩ := writeStepDigits_spec r (v % r ^ Nat.log r (2 ^ 64 - 1))
      hr buf L (Nat.log r (2 ^ 64 - 1)) hstep1 hstepL (Nat.mod_lt _ hDpos)
    rcases hE1 : writeStepDigits (v % r ^ Nat.log r (2 ^ 64 - 1)) r
        (digitPairTable r) buf L (Nat.log r (2 ^ 64 - 1)) with ⟨b1, i1⟩
    rw [hE1] at s1 s2 s3
    simp only at s1 s2 s3 ⊢
    subst s1
    by_cases hv1 : v / r ^ Nat.log r (2 ^ 64 - 1) ≤ 2 ^ 64 - 1
    · rw [if_pos hv1,
        show v / r ^ Nat.log r (2 ^ 64 - 1) % 2 ^ 64 =
          v / r ^ Nat.log r (2 ^ 64 - 1) from Nat.mod_eq_of_lt (by omega)]
      obtain ⟨t1, t2, t3⟩ := writeDigits_spec r (v / r ^ Nat.log r (2 ^ 64 - 1))
        hr b1 (L - Nat.log r (2 ^ 64 - 1)) (by omega)
      rcases hE2 : writeDigits (v / r ^ Nat.log r (2 ^ 64 - 1)) r
          (digitPairTable r) b1 (L - Nat.log r (2 ^ 64 - 1)) with ⟨bw, iw⟩
      rw [hE2] at t1 t2 t3
      simp only at t1 t2 t3 ⊢
      have hchunkpreserved : bufSlice bw (L - Nat.log r (2 ^ 64 - 1))
          (Nat.log r (2 ^ 64 - 1)) =
          ((lowDigits r (Nat.log r (2 ^ 64 - 1))
            (v % r ^ Nat.log r (2 ^ 64 - 1))).map digitToChar).reverse := by
        rw [bufSlice_congr _ b1 _ _ (fun p hp _ => t3 p (Or.inr hp))]
        exact s2
      refine ⟨?_, ?_, hparse, ?_⟩
      · rw [t1, hclen1]; omega
      · rw [hclen1,
          show L - ((digitsBytes r (v / r ^ Nat.log r (2 ^ 64 - 1))).length +
            Nat.log r (2 ^ 64 - 1)) =
            L - Nat.log r (2 ^ 64 - 1) -
            (digitsBytes r (v / r ^ Nat.log r (2 ^ 64 - 1))).length from by omega,
          bufSlice_split, t2,
          show L - Nat.log r (2 ^ 64 - 1) -
            (digitsBytes r (v / r ^ Nat.log r (2 ^ 64 - 1))).length +
            (digitsBytes r (v / r ^ Nat.log r (2 ^ 64 - 1))).length =
            L - Nat.log r (2 ^ 64 - 1) from by omega,
          hchunkpreserved, hchunk1]
      · intro hbig
        rw [hchunkpreserved]
        exact (pad_digitsBytes r (Nat.log r (2 ^ 64 - 1)) _ hr hstep1
          (Nat.mod_lt _ hDpos)).symm
    · rw [if_neg hv1]
      push_neg at hv1
      have hDv2 : r ^ Nat.log r (2 ^ 64 - 1) ≤ v / r ^ Nat.log r (2 ^ 64 - 1) := by
        omega
      have hchunk2 := digitsBytes_chunk r (Nat.log r (2 ^ 64 - 1))
        (v / r ^ Nat.log r (2 ^ 64 - 1)) hr hDv2
      have hclen2 := digitsBytes_chunk_length r (Nat.log r (2 ^ 64 - 1))
        (v / r ^ Nat.log r (2 ^ 64 - 1)) hr hDv2
      have hhi2 : 1 ≤ (digitsBytes r
          (v / r ^ Nat.log r (2 ^ 64 - 1) / r ^ Nat.log r (2 ^ 64 - 1))).length :=
        digitsBytes_length_pos r _ hr
      have hstepL2 : Nat.log r (2 ^ 64 - 1) ≤ L - Nat.log r (2 ^ 64 - 1) := by omega
      obtain ⟨u1, u2, u3⟩ := writeStepDigits_spec r
        (v / r ^ Nat.log r (2 ^ 64 - 1) % r ^ Nat.log r (2 ^ 64 - 1)) hr b1
        (L - Nat.log r (2 ^ 64 - 1)) (Nat.log r (2 ^ 64 - 1)) hstep1 hstepL2
        (Nat.mod_lt _ hDpos)
      rcases hE2 : writeStepDigits
          (v / r ^ Nat.log r (2 ^ 64 - 1) % r ^ Nat.log r (2 ^ 64 - 1)) r
          (digitPairTable r) b1 (L - Nat.log r (2 ^ 64 - 1))
          (Nat.log r (2 ^ 64 - 1)) with ⟨b2, i2⟩
      rw [hE2] at u1 u2 u3
      simp only at u1 u2 u3 ⊢
      subst u1
      rw [if_pos (by omega :
        L - Nat.log r (2 ^ 64 - 1) - Nat.log r (2 ^ 64 - 1) ≠ 0)]
      have hD32 : 2 ^ 32 ≤ r ^ Nat.log r (2 ^ 64 - 1) := by
        have h36 : r ^ Nat.log r (2 ^ 64 - 1) * r ≤
            r ^ Nat.log r (2 ^ 64 - 1) * 36 :=
          Nat.mul_le_mul_left _ hr36
        omega
      have htoplt : v / r ^ Nat.log r (2 ^ 64 - 1) / r ^ Nat.log r (2 ^ 64 - 1) <
          2 ^ 64 := by
        rw [Nat.div_lt_iff_lt_mul hDpos, Nat.div_lt_iff_lt_mul hDpos]
        calc v < 2 ^ 128 := hv
        _ ≤ 2 ^ 64 * (2 ^ 32) * (2 ^ 32) := by norm_num
        _ ≤ 2 ^ 64 * r ^ Nat.log r (2 ^ 64 - 1) * r ^ Nat.log r (2 ^ 64 - 1) := by
            have := Nat.mul_le_mul (Nat.mul_le_mul_left (2 ^ 64) hD32) hD32
            simpa [Nat.mul_assoc] using this
      rw [show v / r ^ Nat.log r (2 ^ 64 - 1) / r ^ Nat.log r (2 ^ 64 - 1) %
          2 ^ 64 = v / r ^ Nat.log r (2 ^ 64 - 1) / r ^ Nat.log r (2 ^ 64 - 1)
          from Nat.mod_eq_of_lt htoplt]
      obtain ⟨t1, t2, t3⟩ := writeDigits_spec r
        (v / r ^ Nat.log r (2 ^ 64 - 1) / r ^ Nat.log r (2 ^ 64 - 1)) hr b2
        (L - Nat.log r (2 ^ 64 - 1) - Nat.log r (2 ^ 64 - 1)) (by omega)
      rcases hE3 : writeDigits
          (v / r ^ Nat.log r (2 ^ 64 - 1) / r ^ Nat.log r (2 ^ 64 - 1)) r
          (digitPairTable r) b2
          (L - Nat.log r (2 ^ 64 - 1) - Nat.log r (2 ^ 64 - 1)) with ⟨bw, iw⟩
      rw [hE3] at t1 t2 t3
      simp only at t1 t2 t3 ⊢
      have hchunk2preserved : bufSlice bw
          (L - Nat.log r (2 ^ 64 - 1) - Nat.log r (2 ^ 64 - 1))
          (Nat.log r (2 ^ 64 - 1)) =
          ((lowDigits r (Nat.log r (2 ^ 64 - 1))
            (v / r ^ Nat.log r (2 ^ 64 - 1) % r ^ Nat.log r (2 ^ 64 - 1))).map
              digitToChar).reverse := by
        rw [bufSlice_congr _ b2 _ _ (fun p hp _ => t3 p (Or.inr hp))]
        exact u2
      have hchunk1preserved : bufSlice bw (L - Nat.log r (2 ^ 64 - 1))
          (Nat.log r (2 ^ 64 - 1)) =
          ((lowDigits r (Nat.log r (2 ^ 64 - 1))
            (v % r ^ Nat.log r (2 ^ 64 - 1))).map digitToChar).reverse := by
        rw [bufSlice_congr _ b2 _ _ (fun p hp _ => t3 p (Or.inr (by omega)))]
        rw [bufSlice_congr _ b1 _ _ (fun p hp _ => u3 p (Or.inr (by omega)))]
        exact s2
      refine ⟨?_, ?_, hparse, ?_⟩
      · rw [t1, hclen1, hclen2]; omega
      · rw [hclen1, hclen2,
          show L - ((digitsBytes r (v / r ^ Nat.log r (2 ^ 64 - 1) /
              r ^ Nat.log r (2 ^ 64 - 1))).length + Nat.log r (2 ^ 64 - 1) +
              Nat.log r (2 ^ 64 - 1)) =
            L - Nat.log r (2 ^ 64 - 1) - Nat.log r (2 ^ 64 - 1) -
            (digitsBytes r (v / r ^ Nat.log r (2 ^ 64 - 1) /
              r ^ Nat.log r (2 ^ 64 - 1))).length from by omega,
          show (digitsBytes r (v / r ^ Nat.log r (2 ^ 64 - 1) /
              r ^ Nat.log r (2 ^ 64 - 1))).length + Nat.log r (2 ^ 64 - 1) +
              Nat.log r (2 ^ 64 - 1) =
            (digitsBytes r (v / r ^ Nat.log r (2 ^ 64 - 1) /
              r ^ Nat.log r (2 ^ 64 - 1))).length + (Nat.log r (2 ^ 64 - 1) +
              Nat.log r (2 ^ 64 - 1)) from by omega,
          bufSlice_split, bufSlice_split, t2,
          show L - Nat.log r (2 ^ 64 - 1) - Nat.log r (2 ^ 64 - 1) -
            (digitsBytes r (v / r ^ Nat.log r (2 ^ 64 - 1) /
              r ^ Nat.log r (2 ^ 64 - 1))).length +
            (digitsBytes r (v / r ^ Nat.log r (2 ^ 64 - 1) /
              r ^ Nat.log r (2 ^ 64 - 1))).length =
            L - Nat.log r (2 ^ 64 - 1) - Nat.log r (2 ^ 64 - 1) from by omega,
          hchunk2preserved,
          show L - Nat.log r (2 ^ 64 - 1) - Nat.log r (2 ^ 64 - 1) +
            Nat.log r (2 ^ 64 - 1) = L - Nat.log r (2 ^ 64 - 1) from by omega,
          hchunk1preserved, hchunk1, hchunk2, List.append_assoc]
      · intro hbig
        rw [hchunk1preserved]
        exact (pad_digitsBytes r (Nat.log r (2 ^ 64 - 1)) _ hr hstep1
          (Nat.mod_lt _ hDpos)).symm

theorem integer_digits_roundtrip_witness :
    ((10:Nat) ^ 20 < 2 ^ 128 ∧ 2 ≤ 10 ∧ 10 ≤ 36 ∧
      (Nat.digits 10 (2 ^ 128 - 1)).length ≤ 39) ∧
    ((algorithmU128 (10 ^ 20) 10 (digitPairTable 10) (fun _ => 0) 39).2 =
        39 - (digitsBytes 10 (10 ^ 20)).length ∧
      bufSlice (algorithmU128 (10 ^ 20) 10 (digitPairTable 10) (fun _ => 0) 39).1
        (39 - (digitsBytes 10 (10 ^ 20)).length) (digitsBytes 10 (10 ^ 20)).length =
        digitsBytes 10 (10 ^ 20) ∧
      parseDigits 10 (digitsBytes 10 (10 ^ 20)) = 10 ^ 20 ∧
      (2 ^ 64 - 1 < (10:Nat) ^ 20 →
        bufSlice (algorithmU128 (10 ^ 20) 10 (digitPairTable 10) (fun _ => 0) 39).1
          (39 - (u128Divisor 10).2) (u128Divisor 10).2 =
          List.replicate ((u128Divisor 10).2 -
            (digitsBytes 10 (10 ^ 20 % (u128Divisor 10).1)).length) 48 ++
            digitsBytes 10 (10 ^ 20 % (u128Divisor 10).1))) :=
  ⟨⟨by norm_num, by norm_num, by norm_num,
      digits_len_le_of_lt_pow 10 39 _ (by norm_num) (by norm_num)⟩,
    integer_digits_roundtrip (10 ^ 20) 10 39 (fun _ => 0) (by norm_num) (by norm_num)
      (by norm_num) (digits_len_le_of_lt_pow 10 39 _ (by norm_num) (by norm_num))⟩

-- Correctness of the exact comparisons against the decoded rational values

theorem cross_scale_le (ma mb : Nat) (ea eb : Int) :
    (ma * 2 ^ (ea - eb).toNat ≤ mb * 2 ^ (eb - ea).toNat) ↔
      ((ma : ℚ) * 2 ^ ea ≤ (mb : ℚ) * 2 ^ eb) := by
  rcases le_total ea eb with h | h
  · rw [Int.toNat_of_nonpos (by omega), pow_zero, mul_one]
    have hd : ((eb - ea).toNat : Int) = eb - ea := Int.toNat_of_nonneg (by omega)
    constructor
    · intro hle
      have hle' : ((ma : ℚ)) ≤ (mb : ℚ) * 2 ^ (eb - ea).toNat := by
        exact_mod_cast hle
      calc (ma : ℚ) * 2 ^ ea ≤ ((mb : ℚ) * 2 ^ (eb - ea).toNat) * 2 ^ ea :=
            mul_le_mul_of_nonneg_right hle' (le_of_lt (zpow_pos (by norm_num) _))
        _ = (mb : ℚ) * 2 ^ eb := by
            rw [mul_assoc, ← zpow_natCast (2:ℚ) ((eb - ea).toNat), hd,
              ← zpow_add₀ (by norm_num : (2:ℚ) ≠ 0)]
            congr 2
            omega
    · intro hle
      have h2 : ((ma : ℚ)) * 2 ^ ea ≤ ((mb : ℚ) * 2 ^ (eb - ea).toNat) * 2 ^ ea := by
        calc ((ma : ℚ)) * 2 ^ ea ≤ (mb : ℚ) * 2 ^ eb := hle
          _ = ((mb : ℚ) * 2 ^ (eb - ea).toNat) * 2 ^ ea := by
            rw [mul_assoc, ← zpow_natCast (2:ℚ) ((eb - ea).toNat), hd,
              ← zpow_add₀ (by norm_num : (2:ℚ) ≠ 0)]
            congr 2
            omega
      have := le_of_mul_le_mul_right h2 (zpow_pos (by norm_num) ea)
      exact_mod_cast this
  · rw [Int.toNat_of_nonpos (by omega : eb - ea ≤ 0), pow_zero, mul_one]
    have hd : ((ea - eb).toNat : Int) = ea - eb := Int.toNat_of_nonneg (by omega)
    constructor
    · intro hle
      have hle' : ((ma : ℚ)) * 2 ^ (ea - eb).toNat ≤ (mb : ℚ) := by
        exact_mod_cast hle
      have h2 : ((ma : ℚ) * 2 ^ (ea - eb).toNat) * 2 ^ eb ≤ (mb : ℚ) * 2 ^ eb :=
        mul_le_mul_of_nonneg_right hle' (le_of_lt (zpow_pos (by norm_num) _))
      calc (ma : ℚ) * 2 ^ ea = ((ma : ℚ) * 2 ^ (ea - eb).toNat) * 2 ^ eb := by
            rw [mul_assoc, ← zpow_natCast (2:ℚ) ((ea - eb).toNat), hd,
              ← zpow_add₀ (by norm_num : (2:ℚ) ≠ 0)]
            congr 2
            omega
        _ ≤ (mb : ℚ) * 2 ^ eb := h2
    · intro hle
      have h2 : ((ma : ℚ) * 2 ^ (ea - eb).toNat) * 2 ^ eb ≤ (mb : ℚ) * 2 ^ eb := by
        calc ((ma : ℚ) * 2 ^ (ea - eb).toNat) * 2 ^ eb = (ma : ℚ) * 2 ^ ea := by
              rw [mul_assoc, ← zpow_natCast (2:ℚ) ((ea - eb).toNat), hd,
                ← zpow_add₀ (by norm_num : (2:ℚ) ≠ 0)]
              congr 2
              omega
          _ ≤ (mb : ℚ) * 2 ^ eb := hle
      have := le_of_mul_le_mul_right h2 (zpow_pos (by norm_num) eb)
      exact_mod_cast this

theorem f64Le_iff (a b : Nat) : f64Le a b = true ↔ F64val a ≤ F64val b := by
  unfold f64Le F64val FloatType.val
  rw [decide_eq_true_eq]
  exact cross_scale_le _ _ _ _

set_option maxRecDepth 10000 in
/-- C6: for every finite positive non-zero f64 and radix in [2,36],
ftoa_naive chooses scientific notation exactly when the value is at most the
f64 constant 1e-5 or at least 1e9 (stated against the exact rational values
of the operands), and fixed-point notation otherwise; in the fixed-point
branch the literal ".0" is written after the integer digits when no
fractional digits were produced; concretely, 0.000005 formats as "5.e-6" and
1200000000 as "1.2e9" (scientific), 123.45 as "123.45" (fixed-point ending
in ".45") and 123.0 as "123.0". -/
theorem ftoa_naive_branch_selection :
    (∀ v r : Nat, 0 < v → v < U64_INFINITY → 2 ≤ r → r ≤ 36 →
      ftoaNaive r v =
        if F64val v ≤ F64val F64_1E5 ∨ F64val F64_1E9 ≤ F64val v then
          ftoaScientific r v (ftoaDigitsGen r v)
        else ftoaFixed r (ftoaDigitsGen r v)) ∧
    (∀ v r : Nat, ¬ (F64val v ≤ F64val F64_1E5 ∨ F64val F64_1E9 ≤ F64val v) →
      (ftoaDigitsGen r v).fractionCursor = initialPosition →
      ftoaNaive r v = bufSlice (ftoaDigitsGen r v).buffer
        (ftoaDigitsGen r v).integerCursor
        (initialPosition - (ftoaDigitsGen r v).integerCursor) ++ [46, 48]) ∧
    ftoaNaive 10 4527516983983565041 = [53, 46, 101, 45, 54] ∧
    ftoaNaive 10 4742819972793761792 = [49, 46, 50, 101, 57] ∧
    ftoaNaive 10 4638387438405602509 = [49, 50, 51, 46, 52, 53] ∧
    ftoaNaive 10 4638355772470722560 = [49, 50, 51, 46, 48] := by
  have hbool : ∀ v : Nat, (F64val v ≤ F64val F64_1E5 ∨ F64val F64_1E9 ≤ F64val v) →
      (f64Le v F64_1E5 || f64Le F64_1E9 v) = true := by
    intro v hc
    rw [Bool.or_eq_true, f64Le_iff, f64Le_iff]
    exact hc
  have hbool' : ∀ v : Nat,
      ¬ (F64val v ≤ F64val F64_1E5 ∨ F64val F64_1E9 ≤ F64val v) →
      ¬ ((f64Le v F64_1E5 || f64Le F64_1E9 v) = true) := by
    intro v hc h
    rw [Bool.or_eq_true, f64Le_iff, f64Le_iff] at h
    exact hc h
  refine ⟨?_, ?_, by decide, by decide, by decide, by decide⟩
  · intro v r _ _ _ _
    rw [ftoaNaive]
    by_cases hc : F64val v ≤ F64val F64_1E5 ∨ F64val F64_1E9 ≤ F64val v
    · rw [if_pos hc, if_pos (hbool v hc)]
    · rw [if_neg hc, if_neg (hbool' v hc)]
  · intro v r hnot hfc
    rw [ftoaNaive, if_neg (hbool' v hnot), ftoaFixed, hfc]
    simp

/-- Witness for the hypothesis-bearing parts of the C6 theorem, applied at
123.45 (bit pattern 4638387438405602509) and radix 10. -/
theorem ftoa_naive_branch_selection_witness :
    ((0 : Nat) < 4638387438405602509 ∧ 4638387438405602509 < U64_INFINITY ∧
      (2 : Nat) ≤ 10 ∧ (10 : Nat) ≤ 36) ∧
    ftoaNaive 10 4638387438405602509 =
      (if F64val 4638387438405602509 ≤ F64val F64_1E5 ∨
          F64val F64_1E9 ≤ F64val 4638387438405602509 then
        ftoaScientific 10 4638387438405602509 (ftoaDigitsGen 10 4638387438405602509)
      else ftoaFixed 10 (ftoaDigitsGen 10 4638387438405602509)) :=
  ⟨⟨by norm_num, by norm_num [U64_INFINITY], by norm_num, by norm_num⟩,
    ftoa_naive_branch_selection.1 4638387438405602509 10 (by norm_num)
      (by norm_num [U64_INFINITY]) (by norm_num) (by norm_num)⟩

set_option maxRecDepth 10000 in
/-- C2: the carry back-trace of ftoa_naive is broken.  The loop tests
digit <= radix, which holds for every digit, so a trailing 9 is rewritten to
digit_to_char(10) = the byte 97 and the carry never ripples further.  At the
f64 0.26999999999999996 (bit pattern 4598535507515466055), radix 10, the
output bytes are "0.26a": they contain 97, which is not a radix-10 digit, a
point, a sign, or the exponent marker. -/
theorem ftoa_carry_backtrace_bug :
    ftoaNaive 10 4598535507515466055 = [48, 46, 50, 54, 97] ∧
    97 ∈ ftoaNaive 10 4598535507515466055 ∧
    ¬ (97 = 46 ∨ 97 = 45 ∨ 97 = exponentNotationChar 10 ∨
      (48 ≤ 97 ∧ 97 ≤ 57)) := by
  refine ⟨by decide, by decide, by decide⟩

end Lexical
